import Mathlib

/-!
# Verification of the `ratatui-code-editor` editing core

Shallow embedding of the repository's data model and algorithms:

* `src/history.rs` — the bounded undo/redo log (`History`);
* `src/code.rs` — the text buffer (`Code`): character-offset insert/remove,
  transactions, undo/redo replay, `smart_paste`;
* `src/utils.rs` — `indent`, `comment`, `count_indent_units`;
* `src/click.rs` — `ClickTracker`;
* `src/selection.rs` — `Selection`;
* `src/actions.rs` — movement actions and `ToggleComment`.

Text is modelled as `List Char` (ropey's rope is a sequence of characters
indexed by character offset; its tree layout only affects complexity, not
the values computed).  The tree-sitter syntax tree, parser and query are
external capabilities that never touch the character content; they are
modelled as `Option Unit` presence flags where a claim mentions them.
Rust `usize` arithmetic is `Nat`; the one place the source can underflow
(`index -= 1` in `History::push`) is analysed explicitly.
-/

set_option autoImplicit false

namespace Rce

/-! ## Character-sequence primitives (ropey operations used by `Code`) -/

/-- Model of `ropey::Rope::insert` at a character offset:
the text `t` is placed before the character at position `n`. -/
def insertAt (n : Nat) (t : List Char) (c : List Char) : List Char :=
  c.take n ++ t ++ c.drop n

/-- Model of `ropey::Rope::remove(from..to)` on character offsets. -/
def removeAt (f t : Nat) (c : List Char) : List Char :=
  c.take f ++ c.drop t

/-- Model of `Rope::slice(from..to).to_string()` on character offsets. -/
def sliceAt (f t : Nat) (c : List Char) : List Char :=
  (c.take t).drop f

@[simp] theorem length_insertAt (n : Nat) (t c : List Char) (h : n ≤ c.length) :
    (insertAt n t c).length = c.length + t.length := by
  simp [insertAt]
  omega

@[simp] theorem length_removeAt (f t : Nat) (c : List Char) (hf : f ≤ t) (ht : t ≤ c.length) :
    (removeAt f t c).length = c.length - (t - f) := by
  simp [removeAt]
  omega

/-- Removing exactly the characters just inserted restores the sequence. -/
theorem removeAt_insertAt (n : Nat) (t c : List Char) (h : n ≤ c.length) :
    removeAt n (n + t.length) (insertAt n t c) = c := by
  have hl : (c.take n).length = n := by simp [h]
  have htake : (insertAt n t c).take n = c.take n := by
    rw [insertAt, List.append_assoc]
    exact List.take_left' hl
  have hdrop : (insertAt n t c).drop (n + t.length) = c.drop n := by
    have h1 : (c.take n ++ t).length = n + t.length := by simp [hl]
    exact List.drop_left' h1
  simp [removeAt, htake, hdrop]

/-- Re-inserting the recorded slice at the removal point restores the sequence. -/
theorem insertAt_removeAt (f t : Nat) (c : List Char) (hf : f ≤ t) (ht : t ≤ c.length) :
    insertAt f (sliceAt f t c) (removeAt f t c) = c := by
  have hl : (c.take f).length = f := by simp; omega
  have htake : (removeAt f t c).take f = c.take f := by
    rw [removeAt]
    exact List.take_left' hl
  have hdrop : (removeAt f t c).drop f = c.drop t := by
    rw [removeAt]
    exact List.drop_left' hl
  have hsplit : c.take f ++ sliceAt f t c ++ c.drop t = c := by
    have h2 : c.take f ++ (c.take t).drop f = c.take t := by
      have : c.take f = (c.take t).take f := by
        rw [List.take_take]
        simp [Nat.min_eq_left hf]
      rw [this, List.take_append_drop]
    calc c.take f ++ sliceAt f t c ++ c.drop t
        = (c.take f ++ (c.take t).drop f) ++ c.drop t := by simp [sliceAt, List.append_assoc]
      _ = c.take t ++ c.drop t := by rw [h2]
      _ = c := List.take_append_drop t c
  calc insertAt f (sliceAt f t c) (removeAt f t c)
      = c.take f ++ sliceAt f t c ++ c.drop t := by
        simp [insertAt, htake, hdrop, List.append_assoc]
    _ = c := hsplit

/-! ## `History` (src/history.rs)

`History` is generic in the stored batch type: `history.rs` stores plain
edit lists while `code.rs` pushes its own `EditBatch` record carrying
cursor/selection snapshots; the log itself never inspects the batches. -/

/-- `struct History` of src/history.rs: a bounded log of edit batches with a
cursor `index` partitioning it into undoable (`< index`) and redoable
(`≥ index`) batches.  `edits` models the `VecDeque`, front first. -/
structure History (α : Type) where
  index : Nat
  maxItems : Nat
  edits : List α
  deriving Repr, DecidableEq

namespace History

variable {α : Type}

/-- `History::new(max_items)`. -/
def new (α : Type) (maxItems : Nat) : History α :=
  { index := 0, maxItems := maxItems, edits := [] }

/-- `History::push`.  The `while len > index { pop_back }` loop leaves exactly
`edits.take index` (popping from the back until the length is at most `index`).
The `index -= 1` in the eviction branch is `usize` subtraction in the source;
it is modelled by truncated `Nat` subtraction, and `pushIndexSafe` below captures
exactly when the source would underflow. -/
def push (h : History α) (batch : α) : History α :=
  let t := h.edits.take h.index
  if t.length = h.maxItems then
    { index := (h.index - 1) + 1, maxItems := h.maxItems, edits := t.drop 1 ++ [batch] }
  else
    { index := h.index + 1, maxItems := h.maxItems, edits := t ++ [batch] }

/-- `History::undo`: returns the popped batch together with the new state
(the source mutates `self` and returns `Option<EditBatch>`). -/
def undo (h : History α) : Option α × History α :=
  if h.index = 0 then
    (none, h)
  else
    (h.edits.get? (h.index - 1), { h with index := h.index - 1 })

/-- `History::redo`: returns the replayed batch together with the new state. -/
def redo (h : History α) : Option α × History α :=
  if h.edits.length ≤ h.index then
    (none, h)
  else
    (h.edits.get? h.index, { h with index := h.index + 1 })

/-- The eviction branch of `push` runs `index -= 1` on a `usize`; that
subtraction is free of underflow iff `index ≥ 1` whenever the branch fires
(the branch condition is `len == max_items` after truncating to `index`). -/
def pushIndexSafe (h : History α) : Prop :=
  (h.edits.take h.index).length = h.maxItems → 1 ≤ h.index

instance (h : History Nat) : Decidable (pushIndexSafe h) := by
  unfold pushIndexSafe; infer_instance

end History

/-! Spec-side `History` state machine (§4.2 of the spec), for the refinement
claim C2.  Modelled from the spec's words: "`push(batch)`: truncate to
`index`, evict-front-and-decrement if at capacity, append, `index += 1`.
`undo()`: if `index == 0`, no-op (returns none); else `index -= 1`, return
batch at `index`.  `redo()`: if `index == len`, no-op; else return batch at
`index`, `index += 1`." -/

/-- Spec-side `push`: truncate to `index`, evict-front-and-decrement when at
capacity, append, increment `index`. -/
def specPush {α : Type} (h : History α) (batch : α) : History α :=
  let t := h.edits.take h.index
  let p := if t.length = h.maxItems then (t.drop 1, h.index - 1) else (t, h.index)
  { index := p.2 + 1, maxItems := h.maxItems, edits := p.1 ++ [batch] }

/-- Spec-side `undo`: no-op at `index = 0`, else decrement and return the
batch now at position `index`. -/
def specUndo {α : Type} (h : History α) : Option α × History α :=
  if h.index = 0 then (none, h)
  else (h.edits.get? (h.index - 1), { h with index := h.index - 1 })

/-- Spec-side `redo`: no-op at `index = len`, else return the batch at
position `index` and increment. -/
def specRedo {α : Type} (h : History α) : Option α × History α :=
  if h.index = h.edits.length then (none, h)
  else (h.edits.get? h.index, { h with index := h.index + 1 })

/-! ## History: invariants and operation sequences (for C3) -/

/-- One operation on a `History`, as issued by the buffer. -/
inductive HistOp (α : Type) where
  | push (batch : α)
  | undo
  | redo
  deriving Repr, DecidableEq

/-- Run one operation (discarding the value returned by undo/redo). -/
def History.step {α : Type} (h : History α) : HistOp α → History α
  | .push b => h.push b
  | .undo => (h.undo).2
  | .redo => (h.redo).2

/-- Run a sequence of push/undo/redo operations. -/
def History.run {α : Type} (h : History α) : List (HistOp α) → History α
  | [] => h
  | op :: ops => (h.step op).run ops

/-- The batches returned by `n` consecutive `undo` calls. -/
def History.undoReturned {α : Type} (h : History α) : Nat → List α
  | 0 => []
  | n + 1 =>
    match h.undo with
    | (none, h') => h'.undoReturned n
    | (some b, h') => b :: h'.undoReturned n

/-- The structural invariant of the log: the stored list never exceeds the
capacity and the cursor stays inside the list. -/
def History.Wf {α : Type} (h : History α) : Prop :=
  h.edits.length ≤ h.maxItems ∧ h.index ≤ h.edits.length

theorem History.wf_new {α : Type} (m : Nat) : (History.new α m).Wf := by
  constructor <;> simp [History.new]

theorem History.wf_push {α : Type} (h : History α) (b : α)
    (hm : 1 ≤ h.maxItems) (hwf : h.Wf) : (h.push b).Wf := by
  obtain ⟨h1, h2⟩ := hwf
  have hlt : (h.edits.take h.index).length = h.index := by
    simp [List.length_take]
    omega
  unfold History.push
  by_cases hc : (h.edits.take h.index).length = h.maxItems
  · rw [if_pos hc]
    refine ⟨?_, ?_⟩
    · show (((h.edits.take h.index).drop 1) ++ [b]).length ≤ h.maxItems
      simp [List.length_drop, hc]
      omega
    · show h.index - 1 + 1 ≤ (((h.edits.take h.index).drop 1) ++ [b]).length
      simp [List.length_drop, hc]
      omega
  · rw [if_neg hc]
    refine ⟨?_, ?_⟩
    · show ((h.edits.take h.index) ++ [b]).length ≤ h.maxItems
      simp [hlt]
      omega
    · show h.index + 1 ≤ ((h.edits.take h.index) ++ [b]).length
      simp [hlt]

theorem History.wf_undo {α : Type} (h : History α) (hwf : h.Wf) : (h.undo).2.Wf := by
  obtain ⟨h1, h2⟩ := hwf
  unfold History.undo
  by_cases hc : h.index = 0
  · rw [if_pos hc]
    exact ⟨h1, h2⟩
  · rw [if_neg hc]
    exact ⟨h1, Nat.le_trans (Nat.sub_le h.index 1) h2⟩

theorem History.wf_redo {α : Type} (h : History α) (hwf : h.Wf) : (h.redo).2.Wf := by
  obtain ⟨h1, h2⟩ := hwf
  unfold History.redo
  by_cases hc : h.edits.length ≤ h.index
  · rw [if_pos hc]
    exact ⟨h1, h2⟩
  · rw [if_neg hc]
    refine ⟨h1, ?_⟩
    show h.index + 1 ≤ h.edits.length
    omega

theorem History.wf_run {α : Type} (h : History α) (ops : List (HistOp α))
    (hm : 1 ≤ h.maxItems) (hwf : h.Wf) : (h.run ops).Wf := by
  induction ops generalizing h with
  | nil => exact hwf
  | cons op ops ih =>
    have hstep : (h.step op).Wf := by
      cases op with
      | push b => exact h.wf_push b hm hwf
      | undo => exact h.wf_undo hwf
      | redo => exact h.wf_redo hwf
    have hmax : (h.step op).maxItems = h.maxItems := by
      cases op <;> simp [History.step, History.push, History.undo, History.redo] <;>
        split <;> simp
    rw [History.run]
    exact ih _ (by rw [hmax]; exact hm) hstep

/-- Every operation preserves the configured capacity. -/
theorem History.step_maxItems {α : Type} (h : History α) (op : HistOp α) :
    (h.step op).maxItems = h.maxItems := by
  cases op <;> simp [History.step, History.push, History.undo, History.redo] <;>
    split <;> simp

/-- Running any operation sequence preserves the configured capacity. -/
theorem History.run_maxItems {α : Type} (h : History α) (ops : List (HistOp α)) :
    (h.run ops).maxItems = h.maxItems := by
  induction ops generalizing h with
  | nil => rfl
  | cons op ops ih =>
    rw [History.run, ih, History.step_maxItems]

/-- `undo` never changes the stored list of batches. -/
theorem History.undo_edits {α : Type} (h : History α) : (h.undo).2.edits = h.edits := by
  unfold History.undo
  split <;> simp

/-- Every batch returned by a run of `undo` calls is a member of the stored list. -/
theorem History.undoReturned_subset {α : Type} (h : History α) (n : Nat) (b : α)
    (hb : b ∈ h.undoReturned n) : b ∈ h.edits := by
  induction n generalizing h with
  | zero => simp [History.undoReturned] at hb
  | succ n ih =>
    rw [History.undoReturned] at hb
    by_cases hc : h.index = 0
    · have hu : h.undo = (none, h) := by unfold History.undo; rw [if_pos hc]
      rw [hu] at hb
      exact ih h hb
    · have hu : h.undo = (h.edits.get? (h.index - 1), { h with index := h.index - 1 }) := by
        unfold History.undo
        rw [if_neg hc]
      rw [hu] at hb
      cases hg : h.edits.get? (h.index - 1) with
      | none =>
        rw [hg] at hb
        exact ih { h with index := h.index - 1 } hb
      | some x =>
        rw [hg] at hb
        rcases List.mem_cons.mp hb with hbx | hbm
        · subst hbx
          exact List.get?_mem hg
        · exact ih { h with index := h.index - 1 } hbm

/-- Consecutive pushes onto a fully-undoable log keep the last `maxItems`
batches: the stored list after pushing `bs` is `(edits ++ bs).drop` of the
overflow beyond the capacity. -/
theorem History.run_pushes {α : Type} (c : Nat) (hc : 1 ≤ c) (bs : List α)
    (h : History α) (hmax : h.maxItems = c) (hidx : h.index = h.edits.length)
    (hlen : h.edits.length ≤ c) :
    (h.run (bs.map HistOp.push)).edits =
        (h.edits ++ bs).drop (h.edits.length + bs.length - c) ∧
      (h.run (bs.map HistOp.push)).index = (h.run (bs.map HistOp.push)).edits.length ∧
      (h.run (bs.map HistOp.push)).maxItems = c := by
  induction bs generalizing h with
  | nil =>
    have hz : h.edits.length + 0 - c = 0 := by omega
    simp only [List.map_nil, History.run, List.append_nil, List.length_nil, hz,
      List.drop_zero]
    exact ⟨trivial, hidx, hmax⟩
  | cons b bs ih =>
    have htake : h.edits.take h.index = h.edits := by
      rw [hidx]; exact List.take_length h.edits
    rw [List.map_cons, History.run]
    by_cases hfull : h.edits.length = c
    · have hidx1 : h.index - 1 + 1 = c := by omega
      have hpush : h.step (HistOp.push b) =
          { index := c, maxItems := c, edits := h.edits.drop 1 ++ [b] } := by
        simp only [History.step, History.push, htake, hfull, hmax, if_pos, hidx1]
      have hlen1 : (h.edits.drop 1 ++ [b]).length = c := by
        simp only [List.length_append, List.length_drop, hfull, List.length_cons,
          List.length_nil]
        omega
      rw [hpush]
      have := ih { index := c, maxItems := c, edits := h.edits.drop 1 ++ [b] }
        rfl (by simpa using hlen1.symm) (le_of_eq hlen1)
      refine ⟨?_, this.2⟩
      rw [this.1]
      have hstep : (h.edits.drop 1 ++ [b]) ++ bs = (h.edits ++ b :: bs).drop 1 := by
        rw [List.drop_append_of_le_length (by omega)]
        simp
      simp only [List.length_cons, List.length_append, List.length_drop, hlen1, hfull]
      rw [hstep, List.drop_drop]
      congr 1
      omega
    · have hpush : h.step (HistOp.push b) =
          { index := h.index + 1, maxItems := c, edits := h.edits ++ [b] } := by
        simp only [History.step, History.push, htake, hmax]
        rw [if_neg hfull]
      rw [hpush]
      have hlen1 : (h.edits ++ [b]).length = h.edits.length + 1 := by simp
      have := ih { index := h.index + 1, maxItems := c, edits := h.edits ++ [b] }
        rfl (by simp [hlen1, hidx]) (by rw [hlen1]; omega)
      refine ⟨?_, this.2⟩
      rw [this.1]
      simp only [List.length_cons, List.length_append, List.length_nil, List.append_assoc,
        List.cons_append, List.nil_append]
      congr 1
      omega

/-! ## Claim C2 -/

/-- C2: `History` implements the spec's state machine.  For every `History`
with `index ≤ len` (and a positive capacity, the regime in which the
`usize` subtraction in the eviction branch cannot underflow — see C9),
`push` truncates to `index`, evicts the front and decrements `index` when at
capacity, appends and increments; `undo` is a no-op at `index = 0` and
otherwise decrements `index` and returns the batch now at `index`; `redo`
is a no-op at `index = len` and otherwise returns the batch at `index` and
increments. -/
theorem claim_c2 {α : Type} (h : History α) (b : α)
    (hlen : h.index ≤ h.edits.length) (hcap : 1 ≤ h.maxItems) :
    h.push b = specPush h b ∧ h.undo = specUndo h ∧ h.redo = specRedo h := by
  refine ⟨?_, rfl, ?_⟩
  · simp only [History.push, specPush]
    split <;> rfl
  · unfold History.redo specRedo
    by_cases hc : h.edits.length ≤ h.index
    · have he : h.index = h.edits.length := Nat.le_antisymm hlen hc
      rw [if_pos hc, if_pos he]
    · have he : h.index ≠ h.edits.length := by omega
      rw [if_neg hc, if_neg he]

/-- Witness for C2 at a concrete history. -/
theorem claim_c2_witness :
    History.push ⟨1, 2, [10, 20]⟩ 30 = specPush ⟨1, 2, [10, 20]⟩ 30 ∧
      History.undo ⟨1, 2, [10, 20]⟩ = specUndo ⟨1, 2, [10, 20]⟩ ∧
      History.redo (⟨1, 2, [10, 20]⟩ : History Nat) = specRedo ⟨1, 2, [10, 20]⟩ :=
  claim_c2 ⟨1, 2, [10, 20]⟩ 30 (by decide) (by decide)

/-! ## Claim C9 -/

/-- C9: the `index -= 1` in the eviction branch of `History::push` cannot
underflow when `max_items ≥ 1` and `index ≤ len` (the branch only fires
with `index = max_items ≥ 1`), whereas for a `History` built with
`max_items = 0` the very first push reaches the subtraction with
`index = 0` (the branch fires because `len = 0` equals `max_items`). -/
theorem claim_c9 :
    (∀ (α : Type) (h : History α), 1 ≤ h.maxItems → h.index ≤ h.edits.length →
      h.pushIndexSafe) ∧
    ¬ (History.new Nat 0).pushIndexSafe := by
  constructor
  · intro α h hm hlen hcond
    have : (h.edits.take h.index).length = h.index := by
      simp [List.length_take]
      omega
    omega
  · intro hsafe
    have := hsafe (by simp [History.new])
    simp [History.new] at this

/-- Witness for C9's universally-quantified part at a concrete history. -/
theorem claim_c9_witness :
    History.pushIndexSafe (⟨2, 2, [5, 6]⟩ : History Nat) ∧
      ¬ (History.new Nat 0).pushIndexSafe :=
  ⟨claim_c9.1 Nat ⟨2, 2, [5, 6]⟩ (by decide) (by decide), claim_c9.2⟩

/-! ## Claim C3 -/

/-- C3: a history of capacity `c ≥ 1` never stores more than `c` batches
under any sequence of push/undo/redo; and after `c + 1` consecutive pushes
the first batch pushed (when not re-pushed later) is evicted: the stored
list is exactly the later `c` batches, so no sequence of undo calls can
return it. -/
theorem claim_c3 (c : Nat) (hc : 1 ≤ c) :
    (∀ (α : Type) (ops : List (HistOp α)),
      ((History.new α c).run ops).edits.length ≤ c) ∧
    (∀ (α : Type) (b0 : α) (rest : List α), rest.length = c → b0 ∉ rest →
      ((History.new α c).run ((b0 :: rest).map HistOp.push)).edits = rest ∧
      ∀ n, b0 ∉ ((History.new α c).run ((b0 :: rest).map HistOp.push)).undoReturned n) := by
  constructor
  · intro α ops
    have hwf := History.wf_run (History.new α c) ops (by simpa [History.new] using hc)
      (History.wf_new c)
    have hm := History.run_maxItems (History.new α c) ops
    calc ((History.new α c).run ops).edits.length
        ≤ ((History.new α c).run ops).maxItems := hwf.1
      _ = c := by rw [hm]; rfl
  · intro α b0 rest hlen hmem
    have hrun := History.run_pushes c hc (b0 :: rest) (History.new α c) rfl rfl
      (by simp [History.new])
    have hed : ((History.new α c).run ((b0 :: rest).map HistOp.push)).edits = rest := by
      rw [hrun.1]
      simp [History.new, hlen]
    refine ⟨hed, ?_⟩
    intro n hret
    have := History.undoReturned_subset _ n b0 hret
    rw [hed] at this
    exact hmem this

/-- Witness for C3 at capacity 1 with concrete batches. -/
theorem claim_c3_witness :
    (((History.new Nat 1).run [HistOp.push 7, HistOp.undo, HistOp.redo]).edits.length ≤ 1) ∧
      (((History.new Nat 1).run ([8, 9].map HistOp.push)).edits = [9] ∧
        (8 ∉ ((History.new Nat 1).run ([8, 9].map HistOp.push)).undoReturned 3)) := by
  have h := claim_c3 1 (by decide)
  refine ⟨h.1 Nat [HistOp.push 7, HistOp.undo, HistOp.redo], ?_⟩
  have h2 := h.2 Nat 8 [9] (by decide) (by decide)
  exact ⟨h2.1, h2.2 3⟩

/-! ## Line structure of a character sequence

Model of ropey's line indexing: a text of `n` newline characters has
`n + 1` lines; every line except possibly the last ends with `'\n'`. -/

/-- Split a character sequence into its lines, each line keeping its
terminating `'\n'`; the (possibly empty) final line has none.  The
concatenation of the pieces is the original sequence. -/
def linesOf : List Char → List (List Char)
  | [] => [[]]
  | c :: cs =>
    if c = '\n' then ['\n'] :: linesOf cs
    else
      match linesOf cs with
      | [] => [[c]]
      | l :: ls => (c :: l) :: ls

theorem linesOf_ne_nil (c : List Char) : linesOf c ≠ [] := by
  cases c with
  | nil => simp [linesOf]
  | cons x cs =>
    rw [linesOf]
    split
    · simp
    · split <;> simp

theorem flatten_linesOf (c : List Char) : (linesOf c).flatten = c := by
  induction c with
  | nil => rfl
  | cons x cs ih =>
    rw [linesOf]
    split
    · subst_eqs
      simpa using ih
    · cases hl : linesOf cs with
      | nil => exact absurd hl (linesOf_ne_nil cs)
      | cons l ls =>
        rw [hl] at ih
        simpa using ih

/-- A newline-free character sequence. -/
def NlFree (l : List Char) : Prop := '\n' ∉ l

theorem nlFree_cons (x : Char) (l : List Char) :
    NlFree (x :: l) ↔ x ≠ '\n' ∧ NlFree l := by
  unfold NlFree
  rw [List.mem_cons, not_or]
  constructor
  · rintro ⟨h1, h2⟩
    exact ⟨fun he => h1 he.symm, h2⟩
  · rintro ⟨h1, h2⟩
    exact ⟨fun he => h1 he.symm, h2⟩

/-- A piece that is a newline-free body followed by a single `'\n'`. -/
def NlTerm (l : List Char) : Prop := ∃ m, NlFree m ∧ l = m ++ ['\n']

/-- A valid line decomposition: every piece but the last is
newline-terminated, the last is newline-free. -/
def ValidLines : List (List Char) → Prop
  | [] => False
  | [l] => NlFree l
  | l :: ls => NlTerm l ∧ ValidLines ls

theorem validLines_linesOf (c : List Char) : ValidLines (linesOf c) := by
  induction c with
  | nil => simp [linesOf, ValidLines, NlFree]
  | cons x cs ih =>
    rw [linesOf]
    by_cases hx : x = '\n'
    · rw [if_pos hx]
      cases hl : linesOf cs with
      | nil => exact absurd hl (linesOf_ne_nil cs)
      | cons l ls =>
        rw [hl] at ih
        exact ⟨⟨[], by simp [NlFree], rfl⟩, ih⟩
    · rw [if_neg hx]
      cases hl : linesOf cs with
      | nil => exact absurd hl (linesOf_ne_nil cs)
      | cons l ls =>
        rw [hl] at ih
        cases ls with
        | nil =>
          show NlFree (x :: l)
          exact (nlFree_cons x l).mpr ⟨hx, ih⟩
        | cons l2 ls2 =>
          obtain ⟨⟨m, hm, hlm⟩, hrest⟩ := ih
          subst hlm
          exact ⟨⟨x :: m, (nlFree_cons x m).mpr ⟨hx, hm⟩, rfl⟩, hrest⟩

theorem linesOf_nlFree (l : List Char) (h : NlFree l) : linesOf l = [l] := by
  induction l with
  | nil => rfl
  | cons x cs ih =>
    obtain ⟨hx, h2⟩ := (nlFree_cons x cs).mp h
    rw [linesOf, if_neg hx, ih h2]

theorem linesOf_nlTerm_append (m rest : List Char) (h : NlFree m) :
    linesOf (m ++ '\n' :: rest) = (m ++ ['\n']) :: linesOf rest := by
  induction m with
  | nil => simp [linesOf]
  | cons x cs ih =>
    obtain ⟨hx, h2⟩ := (nlFree_cons x cs).mp h
    rw [List.cons_append, linesOf, if_neg hx, ih h2]
    simp

/-- A valid decomposition is exactly what `linesOf` recovers from its
flattening. -/
theorem linesOf_flatten (ls : List (List Char)) (h : ValidLines ls) :
    linesOf ls.flatten = ls := by
  induction ls with
  | nil => exact absurd h (by simp [ValidLines])
  | cons l ls ih =>
    cases ls with
    | nil =>
      simp only [ValidLines] at h
      simp [linesOf_nlFree l h]
    | cons l2 ls2 =>
      obtain ⟨⟨m, hm, hlm⟩, hrest⟩ := h
      subst hlm
      rw [List.flatten_cons]
      have hj : (m ++ ['\n']) ++ (l2 :: ls2).flatten = m ++ '\n' :: (l2 :: ls2).flatten := by
        simp
      rw [hj, linesOf_nlTerm_append m _ hm, ih hrest]

/-! ## Characters, whitespace and trimming (Rust `char` / `str` methods) -/

/-- Rust `char::is_whitespace`: the Unicode `White_Space` property. -/
def rustIsWhitespace (c : Char) : Bool :=
  c = ' ' || c = '\t' || c = '\n' || (0x0B ≤ c.toNat && c.toNat ≤ 0x0D) ||
  c.toNat = 0x85 || c.toNat = 0xA0 || c.toNat = 0x1680 ||
  (0x2000 ≤ c.toNat && c.toNat ≤ 0x200A) ||
  c.toNat = 0x2028 || c.toNat = 0x2029 || c.toNat = 0x202F ||
  c.toNat = 0x205F || c.toNat = 0x3000

/-- Rust `str::trim_start`. -/
def trimStart (l : List Char) : List Char :=
  l.dropWhile rustIsWhitespace

/-- Rust `str::trim_end`. -/
def trimEnd (l : List Char) : List Char :=
  (l.reverse.dropWhile rustIsWhitespace).reverse

/-- Rust `str::trim`. -/
def trimBoth (l : List Char) : List Char :=
  trimEnd (trimStart l)

/-- `line.trim().is_empty()`, the blank-line test of `smart_paste`. -/
def isBlankLine (l : List Char) : Bool :=
  trimBoth l |>.isEmpty

/-! ## `utils.rs`: language tables and indent counting -/

/-- `utils::indent`: the language's indentation unit.  Note the default arm
returns two spaces — never the empty string. -/
def utilsIndent (lang : String) : List Char :=
  match lang with
  | "rust" | "python" | "php" | "toml" | "c" | "cpp"
  | "zig" | "kotlin" | "erlang" | "html" | "sql" => [' ', ' ', ' ', ' ']
  | "go" | "c_sharp" => ['\t']
  | _ => [' ', ' ']

/-- `utils::comment`: the language's line-comment marker.  The default arm
returns `//` — never the empty string. -/
def utilsComment (lang : String) : List Char :=
  match lang with
  | "python" | "shell" => ['#']
  | "lua" => ['-', '-']
  | _ => ['/', '/']

/-- The loop body of `utils::count_indent_units`: repeatedly consume one
whole `indent_unit` from the front of the line, incrementing the column by
the unit's character count, and stop once `max_col` is reached.  The loop
consumes at least one character of `line` per iteration, so structural
fuel of `line.length + 1` never runs out (the `0` arm is unreachable). -/
def countIndentUnitsGoF : Nat → List Char → List Char → Nat → Nat →
    Option Nat → Nat
  | 0, _, _, _, count, _ => count
  | fuel + 1, unit, line, col, count, maxCol =>
    if unit ≠ [] ∧ unit.isPrefixOf line = true then
      match maxCol with
      | some m =>
        if m ≤ col + unit.length then count + 1
        else countIndentUnitsGoF fuel unit (line.drop unit.length)
          (col + unit.length) (count + 1) (some m)
      | none =>
        countIndentUnitsGoF fuel unit (line.drop unit.length)
          (col + unit.length) (count + 1) none
    else count

/-- `utils::count_indent_units`. -/
def countIndentUnits (line unit : List Char) (maxCol : Option Nat) : Nat :=
  if unit = [] then 0 else countIndentUnitsGoF (line.length + 1) unit line 0 0 maxCol

/-- The per-line level loop of `Code::smart_paste`
(`while rest.starts_with(&indent_unit)`): how many whole copies of the
indent unit the line starts with; fuel as in `countIndentUnitsGoF`. -/
def unitLevelF : Nat → List Char → List Char → Nat
  | 0, _, _ => 0
  | fuel + 1, unit, line =>
    if unit ≠ [] ∧ unit.isPrefixOf line = true then
      unitLevelF fuel unit (line.drop unit.length) + 1
    else 0

/-- The number of whole leading copies of `unit` at the front of `line`. -/
def unitLevel (unit line : List Char) : Nat :=
  unitLevelF (line.length + 1) unit line

/-! ## Rust `str::lines` -/

/-- Split off everything before the first `'\n'`; the `Bool` says whether a
`'\n'` was found (its content is not part of either side). -/
def breakAtNl : List Char → List Char × List Char × Bool
  | [] => ([], [], false)
  | c :: cs =>
    if c = '\n' then ([], cs, true)
    else
      let r := breakAtNl cs
      (c :: r.1, r.2.1, r.2.2)

theorem breakAtNl_fst_length (t : List Char) : (breakAtNl t).1.length ≤ t.length := by
  induction t with
  | nil => simp [breakAtNl]
  | cons c cs ih =>
    rw [breakAtNl]
    split
    · simp
    · simpa using Nat.succ_le_succ ih

theorem breakAtNl_snd_length (t : List Char) (hf : (breakAtNl t).2.2 = true) :
    (breakAtNl t).2.1.length < t.length := by
  induction t with
  | nil => simp [breakAtNl] at hf
  | cons c cs ih =>
    rw [breakAtNl] at hf ⊢
    by_cases hc : c = '\n'
    · rw [if_pos hc]
      simp
    · rw [if_neg hc]
      rw [if_neg hc] at hf
      exact Nat.lt_succ_of_lt (ih hf)

/-- Rust `str::strip_suffix('\r').unwrap_or(line)` as applied by
`str::lines` to each newline-terminated piece. -/
def stripCr (l : List Char) : List Char :=
  if l.getLast? = some '\r' then l.dropLast else l

/-- Rust `str::lines` with structural fuel (each split strictly shortens
the remainder, so fuel `t.length + 1` never runs out): pieces split at
`'\n'` (each piece losing a trailing `'\r'`); a final newline produces no
extra empty piece; the empty string has no lines. -/
def rustLinesF : Nat → List Char → List (List Char)
  | 0, _ => []
  | fuel + 1, t =>
    match t with
    | [] => []
    | _ :: _ =>
      let r := breakAtNl t
      if r.2.2 = true then stripCr r.1 :: rustLinesF fuel r.2.1 else [r.1]

/-- Rust `str::lines`. -/
def rustLines (t : List Char) : List (List Char) :=
  rustLinesF (t.length + 1) t

/-- Fuel irrelevance: any fuel above the length computes the same lines. -/
theorem rustLinesF_congr : ∀ (f1 f2 : Nat) (t : List Char),
    t.length < f1 → t.length < f2 → rustLinesF f1 t = rustLinesF f2 t := by
  intro f1
  induction f1 with
  | zero => intro f2 t h1 _; omega
  | succ f1 ih =>
    intro f2 t h1 h2
    cases f2 with
    | zero => omega
    | succ f2 =>
      cases t with
      | nil => rfl
      | cons c cs =>
        rw [rustLinesF, rustLinesF]
        have hlen : (c :: cs).length = cs.length + 1 := rfl
        by_cases hf : (breakAtNl (c :: cs)).2.2 = true
        · rw [if_pos hf, if_pos hf]
          have hlt := breakAtNl_snd_length (c :: cs) hf
          rw [ih f2 (breakAtNl (c :: cs)).2.1 (by omega) (by omega)]
        · rw [if_neg hf, if_neg hf]

theorem rustLines_nil : rustLines [] = [] := rfl

/-- The natural unfolding equation of `rustLines` on a non-empty text. -/
theorem rustLines_cons (c : Char) (cs : List Char) :
    rustLines (c :: cs) =
      if (breakAtNl (c :: cs)).2.2 = true then
        stripCr (breakAtNl (c :: cs)).1 :: rustLines (breakAtNl (c :: cs)).2.1
      else [(breakAtNl (c :: cs)).1] := by
  rw [rustLines, rustLinesF]
  by_cases hf : (breakAtNl (c :: cs)).2.2 = true
  · rw [if_pos hf, if_pos hf]
    have hlt := breakAtNl_snd_length (c :: cs) hf
    congr 1
    rw [rustLines]
    exact rustLinesF_congr _ _ _ (by omega) (by omega)
  · rw [if_neg hf, if_neg hf]

/-! ## `Selection` (src/selection.rs)

Rust's `end` field is called `endPos` here (`end` is a Lean keyword). -/

/-- `struct Selection { start, end }`. -/
structure Selection where
  start : Nat
  endPos : Nat
  deriving Repr, DecidableEq

namespace Selection

/-- `Selection::new`: construction normalizes the order. -/
def new (a b : Nat) : Selection :=
  { start := Nat.min a b, endPos := Nat.max a b }

/-- `Selection::from_anchor_and_cursor`. -/
def fromAnchorAndCursor (anchor cursor : Nat) : Selection :=
  if anchor ≤ cursor then { start := anchor, endPos := cursor }
  else { start := cursor, endPos := anchor }

/-- `Selection::is_empty`. -/
def isEmpty (s : Selection) : Bool :=
  Nat.max s.start s.endPos = Nat.min s.start s.endPos

/-- `Selection::sorted`. -/
def sorted (s : Selection) : Nat × Nat :=
  if s.start ≤ s.endPos then (s.start, s.endPos) else (s.endPos, s.start)

end Selection

/-! ## `Code` (src/code.rs): edits, batches, the buffer -/

/-- `enum EditKind` of code.rs: for `Remove`, `text` is the text that was
actually removed, making the edit self-invertible. -/
inductive EditKind where
  | Insert (offset : Nat) (text : List Char)
  | Remove (offset : Nat) (text : List Char)
  deriving Repr, DecidableEq

/-- `struct Edit { kind }`. -/
structure Edit where
  kind : EditKind
  deriving Repr, DecidableEq

/-- `struct EditState { offset, selection }`. -/
structure EditState where
  offset : Nat
  selection : Option Selection
  deriving Repr, DecidableEq

/-- `struct EditBatch { edits, state_before, state_after }` of code.rs. -/
structure EditBatch where
  edits : List Edit
  stateBefore : Option EditState
  stateAfter : Option EditState
  deriving Repr, DecidableEq

/-- `EditBatch::new`. -/
def EditBatch.new : EditBatch :=
  { edits := [], stateBefore := none, stateAfter := none }

/-- `Code::get_language(lang).is_some()`: the fixed table of languages with
a bundled tree-sitter parser. -/
def getLanguageKnown (lang : String) : Bool :=
  match lang with
  | "rust" | "javascript" | "typescript" | "python" | "go" | "java"
  | "c_sharp" | "c" | "cpp" | "html" | "css" | "yaml" | "json" | "toml"
  | "shell" | "markdown" | "markdown-inline" => true
  | _ => false

/-- `struct Code`.  The tree-sitter tree, parser and highlight query are
external capabilities that never touch `content`; only their presence is
modelled (`Option Unit`), which is what `Code::new` decides.  The
injection tables, change callback and custom-highlight map are likewise
external-only and carry no content semantics. -/
structure Code where
  content : List Char
  lang : String
  tree : Option Unit
  parser : Option Unit
  query : Option Unit
  applyingHistory : Bool
  history : History EditBatch
  currentBatch : EditBatch
  deriving Repr, DecidableEq

namespace Code

/-- `Code::new(text, lang, custom_highlights)`:  when the language has a
parser, tree/parser/query are installed; otherwise all three stay absent.
The bundled highlight assets are compiled into the binary, so construction
for a known language succeeds (the `Result` is `Ok`). -/
def new (text : List Char) (lang : String) : Code :=
  let known := getLanguageKnown lang
  { content := text
    lang := lang
    tree := if known then some () else none
    parser := if known then some () else none
    query := if known then some () else none
    applyingHistory := true
    history := History.new EditBatch 1000
    currentBatch := EditBatch.new }

/-- `Code::len` / `len_chars`. -/
def len (c : Code) : Nat := c.content.length

/-- `Code::len_lines` (ropey: newline count + 1). -/
def lenLines (c : Code) : Nat := (linesOf c.content).length

/-- ropey `char_to_line`: the line containing the character at `i`. -/
def charToLine (c : Code) (i : Nat) : Nat := (c.content.take i).count '\n'

/-- ropey `line_to_char`: the character offset at which line `r` starts. -/
def lineToChar (c : Code) (r : Nat) : Nat := (((linesOf c.content).take r).flatten).length

/-- ropey `line(r)`: the line including its trailing newline. -/
def lineAt (c : Code) (r : Nat) : List Char := (linesOf c.content).getD r []

/-- `Code::line_len`: characters on the line, excluding the trailing
newline on every line but the last. -/
def lineLen (c : Code) (r : Nat) : Nat :=
  let n := (c.lineAt r).length
  if r = c.lenLines - 1 then n else n - 1

/-- `Code::point`: char offset to (row, column). -/
def point (c : Code) (offset : Nat) : Nat × Nat :=
  let row := c.charToLine offset
  (row, offset - c.lineToChar row)

/-- `Code::slice(start, end)`. -/
def sliceStr (c : Code) (f t : Nat) : List Char := sliceAt f t c.content

/-- `Code::tx`: open a fresh transaction. -/
def tx (c : Code) : Code := { c with currentBatch := EditBatch.new }

/-- `Code::set_state_before`. -/
def setStateBefore (c : Code) (offset : Nat) (selection : Option Selection) : Code :=
  { c with currentBatch :=
      { c.currentBatch with stateBefore := some { offset := offset, selection := selection } } }

/-- `Code::set_state_after`. -/
def setStateAfter (c : Code) (offset : Nat) (selection : Option Selection) : Code :=
  { c with currentBatch :=
      { c.currentBatch with stateAfter := some { offset := offset, selection := selection } } }

/-- `Code::commit`: a no-op if no edits were recorded, otherwise push the
batch into history and reset it.  (The change-notification callback is an
external sink and does not alter buffer state.) -/
def commit (c : Code) : Code :=
  if c.currentBatch.edits.isEmpty then c
  else
    { c with history := c.history.push c.currentBatch, currentBatch := EditBatch.new }

/-- `Code::insert(from, text)`: splice the text in; when recording is on,
append a self-invertible `Insert` edit to the open batch.  (The tree patch
`edit_tree`/`reparse` only touches the external syntax tree.) -/
def insert (c : Code) (f : Nat) (text : List Char) : Code :=
  let c1 := { c with content := insertAt f text c.content }
  if c.applyingHistory then
    { c1 with currentBatch :=
        { c1.currentBatch with
            edits := c1.currentBatch.edits ++ [{ kind := EditKind.Insert f text }] } }
  else c1

/-- `Code::remove(from, to)`: capture the removed slice, splice it out and,
when recording is on, append a self-invertible `Remove` edit. -/
def remove (c : Code) (f t : Nat) : Code :=
  let removed := sliceAt f t c.content
  let c1 := { c with content := removeAt f t c.content }
  if c.applyingHistory then
    { c1 with currentBatch :=
        { c1.currentBatch with
            edits := c1.currentBatch.edits ++ [{ kind := EditKind.Remove f removed }] } }
  else c1

/-- `insert` splices the text into the content regardless of recording. -/
theorem insert_content (c : Code) (f : Nat) (text : List Char) :
    (c.insert f text).content = insertAt f text c.content := by
  rw [Code.insert]
  split <;> rfl

/-- `remove` splices the range out of the content regardless of recording. -/
theorem remove_content (c : Code) (f t : Nat) :
    (c.remove f t).content = removeAt f t c.content := by
  rw [Code.remove]
  split <;> rfl

/-- One inverted edit replay step of `Code::undo`. -/
def applyUndoEdit (c : Code) (e : Edit) : Code :=
  match e.kind with
  | EditKind.Insert off t => c.remove off (off + t.length)
  | EditKind.Remove off t => c.insert off t

/-- One original-direction replay step of `Code::redo`. -/
def applyRedoEdit (c : Code) (e : Edit) : Code :=
  match e.kind with
  | EditKind.Insert off t => c.insert off t
  | EditKind.Remove off t => c.remove off (off + t.length)

/-- `Code::undo`: pop a batch, replay its edits in reverse order with each
edit inverted, with recording disabled; return the batch. -/
def undo (c : Code) : Option EditBatch × Code :=
  match c.history.undo with
  | (none, h) => (none, { c with history := h })
  | (some b, h) =>
    let c1 := { c with history := h, applyingHistory := false }
    let c2 := b.edits.foldr (fun e acc => acc.applyUndoEdit e) c1
    (some b, { c2 with applyingHistory := true })

/-- `Code::redo`: pop a batch from the redo side and replay its edits in
original order with recording disabled; return the batch. -/
def redo (c : Code) : Option EditBatch × Code :=
  match c.history.redo with
  | (none, h) => (none, { c with history := h })
  | (some b, h) =>
    let c1 := { c with history := h, applyingHistory := false }
    let c2 := b.edits.foldl (fun acc e => acc.applyRedoEdit e) c1
    (some b, { c2 with applyingHistory := true })

/-- `Code::indent`: delegates to `utils::indent` on the buffer's language. -/
def indent (c : Code) : List Char := utilsIndent c.lang

/-- `Code::comment`: delegates to `utils::comment`. -/
def comment (c : Code) : List Char := utilsComment c.lang

/-- `Code::indentation_level(line, col)`. -/
def indentationLevel (c : Code) (line col : Nat) : Nat :=
  if c.lang = "unknown" || c.lang = "" then 0
  else countIndentUnits (c.lineAt line) c.indent (some col)

/-- `Code::is_only_indentation_before(r, c)`. -/
def isOnlyIndentationBefore (c : Code) (r col : Nat) : Bool :=
  if c.lang = "unknown" || c.lang = "" then false
  else if c.lenLines ≤ r || col = 0 then false
  else
    let line := c.lineAt r
    let unit := c.indent
    if unit.isEmpty then (line.take col).all rustIsWhitespace
    else
      let cu := countIndentUnits line unit (some col)
      decide (col ≤ cu * unit.length)

/-- `Code::find_indent_at_line_start`. -/
def findIndentAtLineStart (c : Code) (lineIdx : Nat) : Option Nat :=
  if c.lenLines ≤ lineIdx then none
  else
    let unit := c.indent
    if unit.isEmpty then none
    else
      let cu := countIndentUnits (c.lineAt lineIdx) unit none
      let col := cu * unit.length
      if 0 < col then some col else none

end Code

/-! ## `Code::smart_paste` -/

/-- The re-indentation loop of `smart_paste` over the lines after the
first, paired with their source indent levels; the state is
(`prev_nonempty_level`, `prev_line_level_in_block`).  Blank lines pass
through and leave the state untouched; other lines are re-indented to
`max 0 (prev_nonempty_level + clamp (level - prev_block_level) (-1) 1)`
units. -/
def smartLinesGo (unit : List Char) :
    List (List Char × Nat) → Nat → Nat → List (List Char)
  | [], _, _ => []
  | (line, lvl) :: rest, prevNE, prevBlk =>
    if isBlankLine line then line :: smartLinesGo unit rest prevNE prevBlk
    else
      let diff : Int := max (-1) (min 1 ((lvl : Int) - (prevBlk : Int)))
      let newLevel : Nat := ((prevNE : Int) + diff).toNat
      ((List.replicate newLevel unit).flatten ++ trimStart line) ::
        smartLinesGo unit rest newLevel lvl

/-- Rust `slice::join("\n")`: the pieces joined with a single `'\n'`
between consecutive pieces. -/
def joinNl : List (List Char) → List Char
  | [] => []
  | [l] => l
  | l :: rest => l ++ '\n' :: joinNl rest

namespace Code

/-- The `to_insert` string built by `Code::smart_paste(offset, text)`:
first line trimmed of leading whitespace, subsequent lines re-indented
relative to the previous non-blank line, all joined with `'\n'`.
In the empty-indent-unit branch the text itself is inserted. -/
def smartPasteText (c : Code) (offset : Nat) (text : List Char) : List Char :=
  let rc := c.point offset
  let baseLevel := c.indentationLevel rc.1 rc.2
  let unit := c.indent
  if unit.isEmpty then text
  else
    match rustLines text with
    | [] => []
    | l0 :: rest =>
      let resultTail :=
        smartLinesGo unit (rest.map (fun l => (l, unitLevel unit l)))
          baseLevel (unitLevel unit l0)
      joinNl (trimStart l0 :: resultTail)

/-- `Code::smart_paste(offset, text)`: insert the re-indented text and
return the number of characters inserted. -/
def smartPaste (c : Code) (offset : Nat) (text : List Char) : Code × Nat :=
  let unit := c.indent
  if unit.isEmpty then (c.insert offset text, text.length)
  else if (rustLines text).isEmpty then (c, 0)
  else
    let toInsert := c.smartPasteText offset text
    (c.insert offset toInsert, toInsert.length)

end Code

/-! ## Claim C1: undo inverts a committed batch -/

/-- One buffer call recorded into a transaction: `Code::insert(offset, text)`
or `Code::remove(from, to)`. -/
inductive Op where
  | ins (offset : Nat) (text : List Char)
  | rem (f t : Nat)
  deriving Repr, DecidableEq

/-- Apply a sequence of insert/remove calls to the buffer. -/
def applyOps (c : Code) : List Op → Code
  | [] => c
  | Op.ins off t :: rest => applyOps (c.insert off t) rest
  | Op.rem f t :: rest => applyOps (c.remove f t) rest

/-- Each call's offsets are valid at the time of the call (the ropey
preconditions: insert offset within the text, remove range ordered and
within the text). -/
def ValidOps : Nat → List Op → Prop
  | _, [] => True
  | n, Op.ins off t :: rest => off ≤ n ∧ ValidOps (n + t.length) rest
  | n, Op.rem f t :: rest => f ≤ t ∧ t ≤ n ∧ ValidOps (n - (t - f)) rest

instance instDecidableValidOps : (n : Nat) → (ops : List Op) → Decidable (ValidOps n ops)
  | _, [] => Decidable.isTrue trivial
  | n, Op.ins off t :: rest => by
    have := instDecidableValidOps (n + t.length) rest
    unfold ValidOps
    infer_instance
  | n, Op.rem f t :: rest => by
    have := instDecidableValidOps (n - (t - f)) rest
    unfold ValidOps
    infer_instance

/-- The content after a sequence of calls, tracked at the text level. -/
def applyContent (x : List Char) : List Op → List Char
  | [] => x
  | Op.ins off t :: rest => applyContent (insertAt off t x) rest
  | Op.rem f t :: rest => applyContent (removeAt f t x) rest

/-- The edits the calls record into the open batch (in call order);
a `remove` records the slice actually removed. -/
def recOps (x : List Char) : List Op → List Edit
  | [] => []
  | Op.ins off t :: rest =>
    { kind := EditKind.Insert off t } :: recOps (insertAt off t x) rest
  | Op.rem f t :: rest =>
    { kind := EditKind.Remove f (sliceAt f t x) } :: recOps (removeAt f t x) rest

/-- The content effect of one inverted edit (the body of `Code::undo`'s
reverse loop). -/
def undoStepContent (e : Edit) (x : List Char) : List Char :=
  match e.kind with
  | EditKind.Insert off t => removeAt off (off + t.length) x
  | EditKind.Remove off t => insertAt off t x

/-- Replaying a recorded edit list in reverse with each edit inverted. -/
def undoReplayContent (es : List Edit) (x : List Char) : List Char :=
  es.foldr undoStepContent x

theorem recOps_nil_iff (x : List Char) (ops : List Op) :
    recOps x ops = [] ↔ ops = [] := by
  cases ops with
  | nil => simp [recOps]
  | cons op rest => cases op <;> simp [recOps]

/-- Core inversion: the reverse inverted replay of the recorded edits
undoes the whole call sequence. -/
theorem undoReplay_applyContent (ops : List Op) (x : List Char)
    (h : ValidOps x.length ops) :
    undoReplayContent (recOps x ops) (applyContent x ops) = x := by
  induction ops generalizing x with
  | nil => rfl
  | cons op rest ih =>
    cases op with
    | ins off t =>
      obtain ⟨h1, h2⟩ := h
      have hlen : (insertAt off t x).length = x.length + t.length :=
        length_insertAt off t x h1
      have hrec := ih (insertAt off t x) (by rw [hlen]; exact h2)
      rw [recOps, applyContent, undoReplayContent, List.foldr_cons]
      rw [show (recOps (insertAt off t x) rest).foldr undoStepContent
            (applyContent (insertAt off t x) rest) = insertAt off t x from hrec]
      exact removeAt_insertAt off t x h1
    | rem f t =>
      obtain ⟨h1, h2, h3⟩ := h
      have hlen : (removeAt f t x).length = x.length - (t - f) :=
        length_removeAt f t x h1 h2
      have hrec := ih (removeAt f t x) (by rw [hlen]; exact h3)
      rw [recOps, applyContent, undoReplayContent, List.foldr_cons]
      rw [show (recOps (removeAt f t x) rest).foldr undoStepContent
            (applyContent (removeAt f t x) rest) = removeAt f t x from hrec]
      exact insertAt_removeAt f t x h1 h2

/-- Bookkeeping: with recording enabled, a call sequence transforms the
content as `applyContent` and appends exactly `recOps` to the open batch,
leaving every other field unchanged. -/
theorem applyOps_spec (c : Code) (ops : List Op) (ha : c.applyingHistory = true) :
    applyOps c ops =
      { c with content := applyContent c.content ops,
               currentBatch := { c.currentBatch with
                 edits := c.currentBatch.edits ++ recOps c.content ops } } := by
  induction ops generalizing c with
  | nil => simp [applyOps, applyContent, recOps]
  | cons op rest ih =>
    cases op with
    | ins off t =>
      rw [applyOps]
      have hins : c.insert off t =
          { c with content := insertAt off t c.content,
                   currentBatch := { c.currentBatch with
                     edits := c.currentBatch.edits ++ [{ kind := EditKind.Insert off t }] } } := by
        rw [Code.insert, if_pos ha]
      rw [hins, ih _ (by exact ha)]
      simp [applyContent, recOps]
    | rem f t =>
      rw [applyOps]
      have hrem : c.remove f t =
          { c with content := removeAt f t c.content,
                   currentBatch := { c.currentBatch with
                     edits := c.currentBatch.edits ++
                       [{ kind := EditKind.Remove f (sliceAt f t c.content) }] } } := by
        rw [Code.remove, if_pos ha]
      rw [hrem, ih _ (by exact ha)]
      simp [applyContent, recOps]

/-- With recording disabled, one inverted-edit replay step only rewrites
the content. -/
theorem applyUndoEdit_noRecord (c : Code) (e : Edit) (ha : c.applyingHistory = false) :
    c.applyUndoEdit e = { c with content := undoStepContent e c.content } := by
  cases e with
  | mk k =>
    cases k with
    | Insert off t =>
      show (c.remove off (off + t.length)) = _
      simp only [Code.remove, ha]
      rfl
    | Remove off t =>
      show (c.insert off t) = _
      simp only [Code.insert, ha]
      rfl

/-- With recording disabled, the whole reverse replay only rewrites the
content, by `undoReplayContent`. -/
theorem foldr_applyUndoEdit (es : List Edit) (c : Code) (ha : c.applyingHistory = false) :
    es.foldr (fun e acc => acc.applyUndoEdit e) c =
      { c with content := undoReplayContent es c.content } := by
  induction es with
  | nil => rfl
  | cons e es ih =>
    rw [List.foldr_cons, ih]
    rw [applyUndoEdit_noRecord _ _ (by exact ha)]
    rfl

/-- Unfolding `Code::undo` when the history yields a batch. -/
theorem code_undo_some (c : Code) (b : EditBatch) (h2 : History EditBatch)
    (hu : c.history.undo = (some b, h2)) :
    c.undo = (some b,
      { (b.edits.foldr (fun e acc => acc.applyUndoEdit e)
          { c with history := h2, applyingHistory := false }) with
        applyingHistory := true }) := by
  rw [Code.undo]
  rw [hu]

/-- After committing a batch onto a fresh history, one `undo` rewrites the
content by the inverted reverse replay of that batch's edits. -/
theorem undo_commit_content (c : Code) (ha : c.applyingHistory = true)
    (hh : c.history = History.new EditBatch 1000)
    (hne : c.currentBatch.edits ≠ []) :
    ((c.commit).undo).2.content = undoReplayContent c.currentBatch.edits c.content := by
  have hpush : c.history.push c.currentBatch =
      { index := 1, maxItems := 1000, edits := [c.currentBatch] } := by
    rw [hh]
    simp [History.push, History.new]
  have hcommit : c.commit =
      { c with history := { index := 1, maxItems := 1000, edits := [c.currentBatch] },
               currentBatch := EditBatch.new } := by
    rw [Code.commit, if_neg (by simpa using hne), hpush]
  rw [hcommit]
  have hu : ({ c with
        history := { index := 1, maxItems := 1000, edits := [c.currentBatch] },
        currentBatch := EditBatch.new } : Code).history.undo =
      (some c.currentBatch,
        { index := 0, maxItems := 1000, edits := [c.currentBatch] }) := by
    show ({ index := 1, maxItems := 1000, edits := [c.currentBatch] } :
      History EditBatch).undo = _
    rw [History.undo, if_neg (by simp)]
    rfl
  rw [code_undo_some _ _ _ hu]
  rw [foldr_applyUndoEdit _ _ rfl]

/-- C1: for every initial text `T` and sequence of insert/remove calls
(each valid at the time of the call) recorded into one open transaction
and committed, a single `Code::undo` restores the content to exactly `T`:
the batch is replayed in reverse with each `Insert` inverted to a `Remove`
of the same text and each `Remove` inverted to an `Insert` of the recorded
removed text. -/
theorem claim_c1 (T : List Char) (lang : String) (ops : List Op)
    (h : ValidOps T.length ops) :
    ((Code.commit (applyOps ((Code.new T lang).tx) ops)).undo).2.content = T := by
  have hc0 : ((Code.new T lang).tx).applyingHistory = true := rfl
  have hspec := applyOps_spec ((Code.new T lang).tx) ops hc0
  cases hops : ops with
  | nil =>
    subst hops
    rw [applyOps]
    rfl
  | cons op rest =>
    have hne : recOps T (op :: rest) ≠ [] := by
      rw [ne_eq, recOps_nil_iff]
      simp
    rw [← hops] at hne ⊢
    have hT : ((Code.new T lang).tx).content = T := rfl
    rw [hT] at hspec
    rw [hspec]
    have hcontent := undo_commit_content
      { (Code.new T lang).tx with
        content := applyContent T ops,
        currentBatch := { ((Code.new T lang).tx).currentBatch with
          edits := ((Code.new T lang).tx).currentBatch.edits ++ recOps T ops } }
      rfl rfl (by
        show ((Code.new T lang).tx).currentBatch.edits ++ recOps T ops ≠ []
        have hz : ((Code.new T lang).tx).currentBatch.edits = ([] : List Edit) := rfl
        rw [hz, List.nil_append]
        exact hne)
    rw [hcontent]
    show undoReplayContent (recOps T ops) (applyContent T ops) = T
    exact undoReplay_applyContent ops T h

/-- Witness for C1: two inserts and a remove in one batch, undone. -/
theorem claim_c1_witness :
    ((Code.commit (applyOps ((Code.new ['a', 'b'] "rust").tx)
      [Op.ins 1 ['x', 'y'], Op.rem 0 2])).undo).2.content = ['a', 'b'] :=
  claim_c1 ['a', 'b'] "rust" [Op.ins 1 ['x', 'y'], Op.rem 0 2] (by decide)

/-! ## `ClickTracker` (src/click.rs)

`Instant` timestamps are modelled as `Nat`; `Instant::duration_since`
saturates at zero for a later argument, which is `Nat` subtraction. -/

/-- `enum ClickKind`. -/
inductive ClickKind where
  | Single
  | Double
  | Triple
  deriving Repr, DecidableEq

/-- `struct ClickTracker { last, prev, max_dt }`: each stored click is a
(timestamp, offset) pair. -/
structure ClickTracker where
  last : Option (Nat × Nat)
  prev : Option (Nat × Nat)
  maxDt : Nat
  deriving Repr, DecidableEq

namespace ClickTracker

/-- `ClickTracker::new`. -/
def new (maxDt : Nat) : ClickTracker :=
  { last := none, prev := none, maxDt := maxDt }

/-- The double test of `register`: `self.last.map(|(t, p)| p == cursor &&
now.duration_since(t) < self.max_dt).unwrap_or(false)`. -/
def doubleCond (ct : ClickTracker) (now cursor : Nat) : Bool :=
  match ct.last with
  | some (t, p) => decide (p = cursor) && decide (now - t < ct.maxDt)
  | none => false

/-- The triple test of `register`: both stored clicks at the same offset,
with `now.duration_since(t0) < max_dt && t1.duration_since(t0) < max_dt` —
the gap compared against `max_dt` alongside the prev-to-last gap is the
total span from the older click to `now`, not the last-to-now gap. -/
def tripleCond (ct : ClickTracker) (now cursor : Nat) : Bool :=
  match ct.last, ct.prev with
  | some (t1, p1), some (t0, p0) =>
    decide (p0 = cursor) && decide (p1 = cursor) &&
      decide (now - t0 < ct.maxDt) && decide (t1 - t0 < ct.maxDt)
  | _, _ => false

/-- `ClickTracker::register(cursor)` at time `now`: classify from the state
before storing, then shift `last` into `prev` and store the new click. -/
def register (ct : ClickTracker) (now cursor : Nat) : ClickKind × ClickTracker :=
  let dbl := ct.doubleCond now cursor
  let tpl := ct.tripleCond now cursor
  let ct1 := { ct with prev := ct.last, last := some (now, cursor) }
  (if tpl then ClickKind.Triple else if dbl then ClickKind.Double else ClickKind.Single,
    ct1)

end ClickTracker

/-! ## Claim C6 -/

/-- C6 counterexample: with `max_interval = 10`, clicks at offset 5 at times
0 and 9, and a new click at the same offset at time 18, both consecutive
gaps (previous-to-last 9, last-to-now 9) are within the interval, yet
`register` classifies the click as Double, not Triple: the source compares
the total span `now - t0 = 18` against `max_dt`, not the last-to-now gap. -/
theorem claim_c6_counterexample :
    (9 - 0 < (ClickTracker.mk (some (9, 5)) (some (0, 5)) 10).maxDt) ∧
    (18 - 9 < (ClickTracker.mk (some (9, 5)) (some (0, 5)) 10).maxDt) ∧
    ((ClickTracker.mk (some (9, 5)) (some (0, 5)) 10).register 18 5).1 =
      ClickKind.Double ∧
    ((ClickTracker.mk (some (9, 5)) (some (0, 5)) 10).register 18 5).1 ≠
      ClickKind.Triple := by
  decide

/-- C6 amended: `register` stores the new event (old `last` becomes `prev`,
the new click becomes `last`) and classifies from the prior state; it
reports Triple exactly when both stored clicks are at the click's offset
with the prev-to-last gap and the total prev-to-now span each within
`max_interval` (`tripleCond` — the last-to-now gap is not compared on its
own); it reports Double exactly when the triple test fails and the last
click is at the same offset within `max_interval` of now, and Single
exactly when both tests fail. -/
theorem claim_c6_amended (ct : ClickTracker) (now cursor : Nat) :
    ((ct.register now cursor).2.prev = ct.last ∧
     (ct.register now cursor).2.last = some (now, cursor) ∧
     (ct.register now cursor).2.maxDt = ct.maxDt) ∧
    ((ct.register now cursor).1 = ClickKind.Triple ↔
      ct.tripleCond now cursor = true) ∧
    ((ct.register now cursor).1 = ClickKind.Double ↔
      (ct.tripleCond now cursor = false ∧ ct.doubleCond now cursor = true)) ∧
    ((ct.register now cursor).1 = ClickKind.Single ↔
      (ct.tripleCond now cursor = false ∧ ct.doubleCond now cursor = false)) := by
  refine ⟨⟨rfl, rfl, rfl⟩, ?_⟩
  have hr : (ct.register now cursor).1 =
      (if ct.tripleCond now cursor then ClickKind.Triple
       else if ct.doubleCond now cursor then ClickKind.Double
       else ClickKind.Single) := rfl
  rw [hr]
  cases htpl : ct.tripleCond now cursor <;>
    cases hdbl : ct.doubleCond now cursor <;> simp

/-! ## Claim C7: unknown languages -/

/-- A capture produced by the external tree-sitter query engine inside
`Code::highlight` (start byte, end byte, capture index, themed value). -/
structure HlCapture (V : Type) where
  startByte : Nat
  endByte : Nat
  capIndex : Nat
  value : V

/-- `Code::highlight_interval`, abstracted over the external query engine:
with no query or no tree it returns no intervals before consulting the
engine; otherwise the captures delivered by the engine (a parameter here)
are sorted by span length descending, ties broken by capture precedence,
and mapped to (start, end, value) triples.  (The `start > end` panic and
the byte-range restriction live on the external side of this interface.) -/
def Code.highlightInterval {V : Type} (c : Code)
    (captures : List (HlCapture V)) : List (Nat × Nat × V) :=
  match c.query, c.tree with
  | none, _ => []
  | some _, none => []
  | some _, some _ =>
    (captures.mergeSort (fun a b =>
        (decide (b.endByte - b.startByte < a.endByte - a.startByte)) ||
        (decide (b.endByte - b.startByte = a.endByte - a.startByte) &&
          decide (b.capIndex ≤ a.capIndex)))).map
      (fun cp => (cp.startByte, cp.endByte, cp.value))

/-- C7 counterexample: for the unknown language id "foo", `Code::new`
leaves tree/parser/query absent, but `Code::indent` returns the two-space
default and `Code::comment` returns `//` — not empty strings. -/
theorem claim_c7_counterexample :
    getLanguageKnown "foo" = false ∧
    (Code.new [] "foo").indent = [' ', ' '] ∧
    (Code.new [] "foo").comment = ['/', '/'] ∧
    (Code.new [] "foo").indent ≠ [] ∧
    (Code.new [] "foo").comment ≠ [] := by
  constructor
  · rfl
  · exact ⟨rfl, rfl, by decide, by decide⟩

/-- C7 amended: for every language id with no known parser, `Code::new`
succeeds with tree, parser and query all absent and `highlight_interval`
returns no intervals; but the indentation-unit and comment-marker lookups
do not return empty strings: they fall back to the `utils` tables, whose
default arms are two spaces and `//` — both always non-empty. -/
theorem claim_c7_amended (lang : String) (t : List Char)
    (h : getLanguageKnown lang = false) :
    (Code.new t lang).tree = none ∧
    (Code.new t lang).parser = none ∧
    (Code.new t lang).query = none ∧
    (∀ (V : Type) (captures : List (HlCapture V)),
      (Code.new t lang).highlightInterval captures = []) ∧
    (Code.new t lang).indent = utilsIndent lang ∧
    (Code.new t lang).comment = utilsComment lang ∧
    (Code.new t lang).indent ≠ [] ∧
    (Code.new t lang).comment ≠ [] := by
  have htree : (Code.new t lang).tree = none := by
    simp [Code.new, h]
  have hparser : (Code.new t lang).parser = none := by
    simp [Code.new, h]
  have hquery : (Code.new t lang).query = none := by
    simp [Code.new, h]
  refine ⟨htree, hparser, hquery, ?_, rfl, rfl, ?_, ?_⟩
  · intro V captures
    rw [Code.highlightInterval, hquery]
  · show utilsIndent lang ≠ []
    unfold utilsIndent
    split <;> simp
  · show utilsComment lang ≠ []
    unfold utilsComment
    split <;> simp

/-- Witness for C7 at the concrete unknown language "txt". -/
theorem claim_c7_witness :
    (Code.new ['x'] "txt").tree = none ∧
    (Code.new ['x'] "txt").query = none ∧
    (Code.new ['x'] "txt").highlightInterval
      ([{ startByte := 0, endByte := 2, capIndex := 1, value := 5 }] :
        List (HlCapture Nat)) = [] ∧
    (Code.new ['x'] "txt").indent ≠ [] ∧
    (Code.new ['x'] "txt").comment ≠ [] := by
  have h := claim_c7_amended "txt" ['x'] (by rfl)
  exact ⟨h.1, h.2.2.1, h.2.2.2.1 Nat _, h.2.2.2.2.2.2.1, h.2.2.2.2.2.2.2⟩

/-! ## `Editor` context for the action layer (src/actions.rs)

`actions.rs` drives an editor context through accessors
(`get_cursor`/`set_cursor`/`get_selection`/`set_selection`/
`clear_selection`/`extend_selection`/`selection_anchor`/`code_mut`).  The
`Editor` revision in src/editor.rs predates some of these; the state they
touch is the (buffer, cursor, selection) triple the spec describes, and
`selection_anchor` is taken from src/editor.rs. -/

/-- Modelled from the spec: the editor context the actions mutate — spec §2
"Editor — holds Buffer + cursor + Selection"; the accessors used by
actions.rs read and replace these fields (the src/editor.rs revision lacks
`extend_selection`/`clear_selection`/`get_selection` wrappers). -/
structure Editor where
  code : Code
  cursor : Nat
  selection : Option Selection
  deriving Repr, DecidableEq

namespace Editor

/-- `Editor::selection_anchor` (src/editor.rs): the selection bound that is
not the live cursor, defaulting to the cursor. -/
def selectionAnchor (e : Editor) : Nat :=
  match e.selection with
  | some s => if e.cursor = s.start then s.endPos else s.start
  | none => e.cursor

/-- Modelled from the spec: `extend_selection(new_cursor)` — "with shift,
extends the selection anchor-to-new-cursor" (matching the shift branch of
`update_selection` in src/editor.rs). -/
def extendSelection (e : Editor) (newCursor : Nat) : Editor :=
  let anchor := e.selectionAnchor
  { e with selection := some (Selection.fromAnchorAndCursor anchor newCursor) }

end Editor

/-! The four movement actions of src/actions.rs. -/

/-- `struct MoveRight { shift }`. -/
structure MoveRight where
  shift : Bool

/-- The fall-through movement of `MoveRight::apply` (after the collapse
check): move one position right if not at the end, extending or clearing
the selection per `shift`. -/
def MoveRight.step (a : MoveRight) (e : Editor) : Editor :=
  if e.cursor < e.code.len then
    let newCursor := e.cursor + 1
    if a.shift then
      let e1 := e.extendSelection newCursor
      { e1 with cursor := newCursor }
    else { e with selection := none, cursor := newCursor }
  else e

/-- `MoveRight::apply`: without shift, a non-empty selection collapses to
its end edge and is cleared; otherwise move one right. -/
def MoveRight.apply (a : MoveRight) (e : Editor) : Editor :=
  match a.shift, e.selection with
  | false, some sel =>
    if sel.isEmpty then a.step e
    else { e with cursor := (sel.sorted).2, selection := none }
  | _, _ => a.step e

/-- `struct MoveLeft { shift }`. -/
structure MoveLeft where
  shift : Bool

/-- The fall-through movement of `MoveLeft::apply`. -/
def MoveLeft.step (a : MoveLeft) (e : Editor) : Editor :=
  if 0 < e.cursor then
    let newCursor := e.cursor - 1
    if a.shift then
      let e1 := e.extendSelection newCursor
      { e1 with cursor := newCursor }
    else { e with selection := none, cursor := newCursor }
  else e

/-- `MoveLeft::apply`: without shift, a non-empty selection collapses to
its start edge and is cleared; otherwise move one left. -/
def MoveLeft.apply (a : MoveLeft) (e : Editor) : Editor :=
  match a.shift, e.selection with
  | false, some sel =>
    if sel.isEmpty then a.step e
    else { e with cursor := (sel.sorted).1, selection := none }
  | _, _ => a.step e

/-- `struct MoveUp { shift }`. -/
structure MoveUp where
  shift : Bool

/-- `MoveUp::apply`: unconditionally move one line up from the live cursor
(no selection-collapse branch), clamping the column to the previous line's
length; clear the selection unless shift extends it. -/
def MoveUp.apply (a : MoveUp) (e : Editor) : Editor :=
  let rc := e.code.point e.cursor
  if rc.1 = 0 then e
  else
    let prevStart := e.code.lineToChar (rc.1 - 1)
    let prevLen := e.code.lineLen (rc.1 - 1)
    let newCol := Nat.min rc.2 prevLen
    let newCursor := prevStart + newCol
    if a.shift then
      let e1 := e.extendSelection newCursor
      { e1 with cursor := newCursor }
    else { e with selection := none, cursor := newCursor }

/-- `struct MoveDown { shift }`. -/
structure MoveDown where
  shift : Bool

/-- `MoveDown::apply`: unconditionally move one line down from the live
cursor (no selection-collapse branch), clamping the column to the next
line's length; clear the selection unless shift extends it. -/
def MoveDown.apply (a : MoveDown) (e : Editor) : Editor :=
  let rc := e.code.point e.cursor
  if e.code.lenLines ≤ rc.1 + 1 then e
  else
    let nextStart := e.code.lineToChar (rc.1 + 1)
    let nextLen := e.code.lineLen (rc.1 + 1)
    let newCol := Nat.min rc.2 nextLen
    let newCursor := nextStart + newCol
    if a.shift then
      let e1 := e.extendSelection newCursor
      { e1 with cursor := newCursor }
    else { e with selection := none, cursor := newCursor }

/-! ## Claim C8 -/

/-- C8 counterexample: in buffer "ab\ncd" with the non-empty selection
[0, 4) and cursor 4 (row 1, column 1), MoveUp without shift does NOT
collapse to the selection's start edge 0: it moves one line up from the
live cursor, landing at offset 1, merely clearing the selection. -/
theorem claim_c8_counterexample :
    (Selection.isEmpty { start := 0, endPos := 4 } = false) ∧
    ((MoveUp.mk false).apply
      { code := Code.new ['a', 'b', '\n', 'c', 'd'] "text",
        cursor := 4, selection := some { start := 0, endPos := 4 } }).cursor = 1 ∧
    ((MoveUp.mk false).apply
      { code := Code.new ['a', 'b', '\n', 'c', 'd'] "text",
        cursor := 4, selection := some { start := 0, endPos := 4 } }).cursor ≠
      (Selection.sorted { start := 0, endPos := 4 }).1 := by
  refine ⟨rfl, ?_, ?_⟩ <;> decide

/-- C8 amended: without shift, a non-empty selection collapses to an edge
only for horizontal movement — MoveLeft to the start edge, MoveRight to
the end edge, both clearing the selection; MoveUp and MoveDown instead
always move one line from the live cursor (when such a line exists),
clamping the target column to the destination line's length, and clear the
selection without collapsing to an edge. -/
theorem claim_c8_amended :
    (∀ (e : Editor) (sel : Selection), e.selection = some sel →
      sel.isEmpty = false →
      ((MoveLeft.mk false).apply e).cursor = (sel.sorted).1 ∧
      ((MoveLeft.mk false).apply e).selection = none ∧
      ((MoveRight.mk false).apply e).cursor = (sel.sorted).2 ∧
      ((MoveRight.mk false).apply e).selection = none) ∧
    (∀ e : Editor, 0 < (e.code.point e.cursor).1 →
      ((MoveUp.mk false).apply e).cursor =
        e.code.lineToChar ((e.code.point e.cursor).1 - 1) +
          Nat.min (e.code.point e.cursor).2
            (e.code.lineLen ((e.code.point e.cursor).1 - 1)) ∧
      ((MoveUp.mk false).apply e).selection = none) ∧
    (∀ e : Editor, (e.code.point e.cursor).1 + 1 < e.code.lenLines →
      ((MoveDown.mk false).apply e).cursor =
        e.code.lineToChar ((e.code.point e.cursor).1 + 1) +
          Nat.min (e.code.point e.cursor).2
            (e.code.lineLen ((e.code.point e.cursor).1 + 1)) ∧
      ((MoveDown.mk false).apply e).selection = none) := by
  refine ⟨?_, ?_, ?_⟩
  · intro e sel hsel hne
    simp [MoveLeft.apply, MoveRight.apply, hsel, hne]
  · intro e hrow
    rw [MoveUp.apply]
    rw [if_neg (by omega)]
    simp
  · intro e hrow
    rw [MoveDown.apply]
    rw [if_neg (by omega)]
    simp

/-- Witness for C8 on the concrete "ab\ncd" buffer. -/
theorem claim_c8_witness :
    (((MoveLeft.mk false).apply
      { code := Code.new ['a', 'b', '\n', 'c', 'd'] "text",
        cursor := 4, selection := some { start := 0, endPos := 4 } }).cursor =
        ((Selection.mk 0 4).sorted).1 ∧
      ((MoveLeft.mk false).apply
        { code := Code.new ['a', 'b', '\n', 'c', 'd'] "text",
          cursor := 4, selection := some { start := 0, endPos := 4 } }).selection = none ∧
      ((MoveRight.mk false).apply
        { code := Code.new ['a', 'b', '\n', 'c', 'd'] "text",
          cursor := 4, selection := some { start := 0, endPos := 4 } }).cursor =
        ((Selection.mk 0 4).sorted).2 ∧
      ((MoveRight.mk false).apply
        { code := Code.new ['a', 'b', '\n', 'c', 'd'] "text",
          cursor := 4, selection := some { start := 0, endPos := 4 } }).selection = none) ∧
    (((MoveUp.mk false).apply
      { code := Code.new ['a', 'b', '\n', 'c', 'd'] "text",
        cursor := 4, selection := some { start := 0, endPos := 4 } }).cursor =
        (Code.new ['a', 'b', '\n', 'c', 'd'] "text").lineToChar 0 +
          Nat.min 1 ((Code.new ['a', 'b', '\n', 'c', 'd'] "text").lineLen 0)) ∧
    (((MoveDown.mk false).apply
      { code := Code.new ['a', 'b', '\n', 'c', 'd'] "text",
        cursor := 0, selection := none }).cursor =
        (Code.new ['a', 'b', '\n', 'c', 'd'] "text").lineToChar 1 +
          Nat.min 0 ((Code.new ['a', 'b', '\n', 'c', 'd'] "text").lineLen 1)) := by
  have h := claim_c8_amended
  refine ⟨h.1 _ (Selection.mk 0 4) rfl rfl, ?_, ?_⟩
  · have h2 := (h.2.1
      { code := Code.new ['a', 'b', '\n', 'c', 'd'] "text",
        cursor := 4, selection := some { start := 0, endPos := 4 } } (by decide)).1
    exact h2
  · have h3 := (h.2.2
      { code := Code.new ['a', 'b', '\n', 'c', 'd'] "text",
        cursor := 0, selection := none } (by decide)).1
    exact h3

/-! ## Claim C4: smart paste on an already-correctly-indented block -/

/-- "Each line's leading indentation, in whole indent units, matches the
level `smart_paste` would assign it at the paste site": mirroring the
re-indentation loop, every non-blank line after the first equals exactly
`new_level` copies of the indent unit followed by its whitespace-trimmed
body, where `new_level` is the level the loop assigns it. -/
def AlreadyIndented (unit : List Char) :
    List (List Char × Nat) → Nat → Nat → Prop
  | [], _, _ => True
  | (line, lvl) :: rest, prevNE, prevBlk =>
    if isBlankLine line then AlreadyIndented unit rest prevNE prevBlk
    else
      let diff : Int := max (-1) (min 1 ((lvl : Int) - (prevBlk : Int)))
      let newLevel : Nat := ((prevNE : Int) + diff).toNat
      line = (List.replicate newLevel unit).flatten ++ trimStart line ∧
        AlreadyIndented unit rest newLevel lvl

instance instDecidableAlreadyIndented (unit : List Char) :
    (pairs : List (List Char × Nat)) → (prevNE prevBlk : Nat) →
      Decidable (AlreadyIndented unit pairs prevNE prevBlk)
  | [], _, _ => Decidable.isTrue trivial
  | (line, lvl) :: rest, prevNE, prevBlk => by
    have h1 := instDecidableAlreadyIndented unit rest prevNE prevBlk
    have h2 := fun nl => instDecidableAlreadyIndented unit rest nl lvl
    unfold AlreadyIndented
    split
    · exact h1
    · exact instDecidableAnd

/-- On an already-correctly-indented tail, the re-indentation loop
reproduces every line unchanged. -/
theorem smartLinesGo_alreadyIndented (unit : List Char) :
    ∀ (pairs : List (List Char × Nat)) (prevNE prevBlk : Nat),
      AlreadyIndented unit pairs prevNE prevBlk →
      smartLinesGo unit pairs prevNE prevBlk = pairs.map Prod.fst := by
  intro pairs
  induction pairs with
  | nil => intro _ _ _; rfl
  | cons p rest ih =>
    intro prevNE prevBlk h
    obtain ⟨line, lvl⟩ := p
    rw [smartLinesGo]
    rw [AlreadyIndented] at h
    by_cases hb : isBlankLine line
    · rw [if_pos hb]
      rw [if_pos hb] at h
      rw [ih _ _ h]
      rfl
    · rw [if_neg hb] at h ⊢
      simp only [List.map_cons]
      rw [ih _ _ h.2]
      rw [← h.1]

/-- C4: if the pasted block's lines are already indented exactly as the
destination requires (in the sense of `AlreadyIndented`, at the base level
of the paste site), `smart_paste` inserts the block unchanged except that
the first line's leading whitespace is trimmed: the inserted string is the
newline-join of `trim_start(first line) :: remaining lines`. -/
theorem claim_c4 (c : Code) (offset : Nat) (text : List Char)
    (hu : c.indent ≠ [])
    (l0 : List Char) (rest : List (List Char))
    (hlines : rustLines text = l0 :: rest)
    (hind : AlreadyIndented c.indent
      (rest.map (fun l => (l, unitLevel c.indent l)))
      (c.indentationLevel (c.point offset).1 (c.point offset).2)
      (unitLevel c.indent l0)) :
    c.smartPasteText offset text = joinNl (trimStart l0 :: rest) ∧
    (c.smartPaste offset text).1.content =
      insertAt offset (joinNl (trimStart l0 :: rest)) c.content ∧
    (c.smartPaste offset text).2 = (joinNl (trimStart l0 :: rest)).length := by
  have hemp : c.indent.isEmpty = false := by
    cases hh : c.indent with
    | nil => exact absurd hh hu
    | cons a l => rfl
  have htext : c.smartPasteText offset text = joinNl (trimStart l0 :: rest) := by
    rw [Code.smartPasteText]
    rw [hemp]
    rw [hlines]
    simp only [Bool.false_eq_true, if_false]
    rw [smartLinesGo_alreadyIndented c.indent _ _ _ hind]
    rw [List.map_map]
    rw [show (Prod.fst ∘ fun l : List Char => (l, unitLevel c.indent l)) =
      (fun l : List Char => l) from rfl]
    rw [List.map_id']
  refine ⟨htext, ?_, ?_⟩
  · simp only [Code.smartPaste, hemp, Bool.false_eq_true, if_false]
    rw [if_neg (by rw [hlines]; simp)]
    show ((c.insert offset (c.smartPasteText offset text)).content) = _
    rw [htext, Code.insert_content]
  · simp only [Code.smartPaste, hemp, Bool.false_eq_true, if_false]
    rw [if_neg (by rw [hlines]; simp)]
    show (c.smartPasteText offset text).length = _
    rw [htext]

/-- Witness for C4: the already-indented paste of the source's second
smart-paste unit test. -/
theorem claim_c4_witness :
    (Code.new ("fn foo() \x7b\n    let x = 1;\n    \n\x7d".data) "rust").smartPasteText 30
        ("    if c \x7b\n        return;\n    \x7d".data) =
      joinNl (trimStart ("    if c \x7b".data) :: ["        return;".data, "    \x7d".data]) ∧
    ((Code.new ("fn foo() \x7b\n    let x = 1;\n    \n\x7d".data) "rust").smartPaste 30
        ("    if c \x7b\n        return;\n    \x7d".data)).1.content =
      insertAt 30
        (joinNl (trimStart ("    if c \x7b".data) :: ["        return;".data, "    \x7d".data]))
        ("fn foo() \x7b\n    let x = 1;\n    \n\x7d".data) ∧
    ((Code.new ("fn foo() \x7b\n    let x = 1;\n    \n\x7d".data) "rust").smartPaste 30
        ("    if c \x7b\n        return;\n    \x7d".data)).2 =
      (joinNl (trimStart ("    if c \x7b".data) ::
        ["        return;".data, "    \x7d".data])).length :=
  claim_c4 (Code.new ("fn foo() \x7b\n    let x = 1;\n    \n\x7d".data) "rust") 30
    ("    if c \x7b\n        return;\n    \x7d".data) (by decide)
    ("    if c \x7b".data) ["        return;".data, "    \x7d".data]
    (by decide) (by decide)

/-! ## Claim C10: smart paste and the trailing newline -/

theorem breakAtNl_true_spec (t : List Char) (hf : (breakAtNl t).2.2 = true) :
    t = (breakAtNl t).1 ++ '\n' :: (breakAtNl t).2.1 ∧ '\n' ∉ (breakAtNl t).1 := by
  induction t with
  | nil => simp [breakAtNl] at hf
  | cons c cs ih =>
    by_cases hc : c = '\n'
    · subst hc
      rw [breakAtNl]
      simp
    · rw [breakAtNl] at hf ⊢
      rw [if_neg hc] at hf ⊢
      simp only at hf
      obtain ⟨h1, h2⟩ := ih hf
      constructor
      · show c :: cs = (c :: (breakAtNl cs).1) ++ '\n' :: (breakAtNl cs).2.1
        rw [List.cons_append, ← h1]
      · show '\n' ∉ c :: (breakAtNl cs).1
        rw [List.mem_cons, not_or]
        exact ⟨fun he => hc he.symm, h2⟩

theorem breakAtNl_false_spec (t : List Char) (hf : (breakAtNl t).2.2 = false) :
    (breakAtNl t).1 = t ∧ '\n' ∉ t := by
  induction t with
  | nil => simp [breakAtNl]
  | cons c cs ih =>
    by_cases hc : c = '\n'
    · subst hc
      rw [breakAtNl] at hf
      simp at hf
    · rw [breakAtNl] at hf ⊢
      rw [if_neg hc] at hf ⊢
      simp only at hf
      obtain ⟨h1, h2⟩ := ih hf
      refine ⟨by rw [show (c :: (breakAtNl cs).1, (breakAtNl cs).2.1,
        (breakAtNl cs).2.2).1 = c :: (breakAtNl cs).1 from rfl, h1], ?_⟩
      rw [List.mem_cons, not_or]
      exact ⟨fun he => hc he.symm, h2⟩

theorem nlFree_stripCr (l : List Char) (h : '\n' ∉ l) : '\n' ∉ stripCr l := by
  rw [stripCr]
  split
  · exact fun hm => h (List.dropLast_sublist l |>.mem hm)
  · exact h

theorem rustLines_nlFree_aux : ∀ (n : Nat) (t : List Char), t.length ≤ n →
    ∀ l ∈ rustLines t, '\n' ∉ l := by
  intro n
  induction n with
  | zero =>
    intro t hlen
    rw [List.length_eq_zero.mp (Nat.le_zero.mp hlen)]
    simp [rustLines_nil]
  | succ n ih =>
    intro t hlen
    cases t with
    | nil => simp [rustLines_nil]
    | cons c cs =>
      rw [rustLines_cons]
      by_cases hf : (breakAtNl (c :: cs)).2.2 = true
      · rw [if_pos hf]
        intro l hl
        obtain ⟨hsplit, hnfree⟩ := breakAtNl_true_spec _ hf
        rcases List.mem_cons.mp hl with hl | hl
        · subst hl
          exact nlFree_stripCr _ hnfree
        · have hlt := breakAtNl_snd_length (c :: cs) hf
          have hcons : (c :: cs).length = cs.length + 1 := rfl
          exact ih (breakAtNl (c :: cs)).2.1 (by omega) l hl
      · rw [if_neg (by simpa using hf)]
        intro l hl
        obtain ⟨_, hnfree⟩ :=
          breakAtNl_false_spec (c :: cs) (by simpa using hf)
        rcases List.mem_cons.mp hl with hl | hl
        · subst hl
          intro hm
          exact hnfree ((breakAtNl_false_spec (c :: cs) (by simpa using hf)).1 ▸ hm)
        · simp at hl

/-- Every line produced by `rustLines` is newline-free. -/
theorem rustLines_nlFree (t : List Char) :
    ∀ l ∈ rustLines t, '\n' ∉ l :=
  rustLines_nlFree_aux t.length t (Nat.le_refl _)

theorem count_nl_rustLines_aux : ∀ (n : Nat) (t : List Char), t.length ≤ n →
    t.getLast? = some '\n' → t.count '\n' = (rustLines t).length := by
  intro n
  induction n with
  | zero =>
    intro t hlen hend
    rw [List.length_eq_zero.mp (Nat.le_zero.mp hlen)] at hend
    simp at hend
  | succ n ih =>
    intro t hlen hend
    cases t with
    | nil => simp at hend
    | cons c cs =>
      have hmem : '\n' ∈ c :: cs := by
        have hg := List.getLast?_eq_getLast (c :: cs) (by simp)
        rw [hg] at hend
        have hm := List.getLast_mem (l := c :: cs) (by simp)
        rw [Option.some.injEq] at hend
        rw [hend] at hm
        exact hm
      rw [rustLines_cons]
      by_cases hf : (breakAtNl (c :: cs)).2.2 = true
      · rw [if_pos hf]
        obtain ⟨hsplit, hnfree⟩ := breakAtNl_true_spec _ hf
        have hz : ((breakAtNl (c :: cs)).1).count '\n' = 0 :=
          List.count_eq_zero.mpr hnfree
        have hcount : (c :: cs).count '\n' =
            1 + ((breakAtNl (c :: cs)).2.1).count '\n' := by
          conv_lhs => rw [hsplit]
          rw [List.count_append, List.count_cons]
          simp [hz]
          omega
        rw [hcount, List.length_cons]
        cases hrest : (breakAtNl (c :: cs)).2.1 with
        | nil => simp [hrest, rustLines_nil]
        | cons r rs =>
          have hlast : (r :: rs).getLast? = some '\n' := by
            rw [hsplit, hrest] at hend
            rw [List.getLast?_append_cons] at hend
            rwa [List.getLast?_cons_cons] at hend
          have hlt := breakAtNl_snd_length (c :: cs) hf
          have hcons : (c :: cs).length = cs.length + 1 := rfl
          have hrec := ih (r :: rs) (by rw [← hrest]; omega) hlast
          omega
      · exfalso
        obtain ⟨_, hnone⟩ := breakAtNl_false_spec (c :: cs) (by simpa using hf)
        exact hnone hmem

/-- A text ending in `'\n'` has exactly as many newline characters as it
has Rust lines (the final newline terminates the last line instead of
opening a new one). -/
theorem count_nl_rustLines (t : List Char) (hend : t.getLast? = some '\n') :
    t.count '\n' = (rustLines t).length :=
  count_nl_rustLines_aux t.length t (Nat.le_refl _) hend

/-- Newline count of a newline-join of newline-free pieces. -/
theorem count_nl_joinNl (ls : List (List Char)) (h : ∀ l ∈ ls, '\n' ∉ l) :
    (joinNl ls).count '\n' = ls.length - 1 := by
  induction ls with
  | nil => rfl
  | cons l rest ih =>
    cases rest with
    | nil =>
      show l.count '\n' = 0
      exact List.count_eq_zero.mpr (h l (by simp))
    | cons l2 rest2 =>
      show (l ++ '\n' :: joinNl (l2 :: rest2)).count '\n' = (l2 :: rest2).length
      rw [List.count_append, List.count_cons]
      rw [List.count_eq_zero.mpr (h l (by simp))]
      rw [ih (fun x hx => h x (List.mem_cons_of_mem l hx))]
      simp

theorem nlFree_trimStart (l : List Char) (h : '\n' ∉ l) : '\n' ∉ trimStart l :=
  fun hm => h (List.dropWhile_sublist rustIsWhitespace |>.mem hm)

theorem nlFree_utilsIndent (lang : String) : '\n' ∉ utilsIndent lang := by
  unfold utilsIndent
  split <;> decide

theorem nlFree_replicate_flatten (n : Nat) (u : List Char) (h : '\n' ∉ u) :
    '\n' ∉ (List.replicate n u).flatten := by
  intro hm
  obtain ⟨s, hs, hmem⟩ := List.mem_flatten.mp hm
  rw [List.eq_of_mem_replicate hs] at hmem
  exact h hmem

/-- The re-indentation loop emits newline-free lines from newline-free
input lines. -/
theorem smartLinesGo_nlFree (u : List Char) (hu : '\n' ∉ u) :
    ∀ (pairs : List (List Char × Nat)) (a b : Nat),
      (∀ p ∈ pairs, '\n' ∉ p.1) →
      ∀ l ∈ smartLinesGo u pairs a b, '\n' ∉ l := by
  intro pairs
  induction pairs with
  | nil => intro a b _ l hl; simp [smartLinesGo] at hl
  | cons p rest ih =>
    intro a b hin
    obtain ⟨line, lvl⟩ := p
    intro l hl
    rw [smartLinesGo] at hl
    by_cases hb : isBlankLine line
    · rw [if_pos hb] at hl
      rcases List.mem_cons.mp hl with hl | hl
      · rw [hl]
        exact hin (line, lvl) (by simp)
      · exact ih a b (fun q hq => hin q (List.mem_cons_of_mem _ hq)) l hl
    · rw [if_neg hb] at hl
      rcases List.mem_cons.mp hl with hl | hl
      · rw [hl]
        intro hm
        rcases List.mem_append.mp hm with hm | hm
        · exact nlFree_replicate_flatten _ u hu hm
        · exact nlFree_trimStart line (hin (line, lvl) (by simp)) hm
      · exact ih _ _ (fun q hq => hin q (List.mem_cons_of_mem _ hq)) l hl

/-- The re-indentation loop emits exactly one line per input line. -/
theorem smartLinesGo_length (u : List Char) :
    ∀ (pairs : List (List Char × Nat)) (a b : Nat),
      (smartLinesGo u pairs a b).length = pairs.length := by
  intro pairs
  induction pairs with
  | nil => intro a b; rfl
  | cons p rest ih =>
    intro a b
    obtain ⟨line, lvl⟩ := p
    rw [smartLinesGo]
    split
    · rw [List.length_cons, ih]
      rfl
    · rw [List.length_cons, ih]
      rfl

/-- `rustLines` of a non-empty text is non-empty. -/
theorem rustLines_ne_nil (t : List Char) (h : t ≠ []) : rustLines t ≠ [] := by
  cases t with
  | nil => exact absurd rfl h
  | cons c cs =>
    rw [rustLines_cons]
    split <;> simp

/-- C10 counterexample: buffer of eight spaces (language "rust", indent
unit four spaces), paste "p\nq\n" at offset 8.  The text ends with a
newline and the indent unit is non-empty, but re-indentation expands "q"
to "        q": the inserted string has 11 characters versus the text's 4,
so the inserted character count is NOT strictly less; nor is the inserted
string the newline-join of the text's lines. -/
theorem claim_c10_counterexample :
    (Code.new (List.replicate 8 ' ') "rust").indent ≠ [] ∧
    (['p', '\n', 'q', '\n'] : List Char).getLast? = some '\n' ∧
    ((Code.new (List.replicate 8 ' ') "rust").smartPaste 8 ['p', '\n', 'q', '\n']).2 = 11 ∧
    ¬ (((Code.new (List.replicate 8 ' ') "rust").smartPaste 8 ['p', '\n', 'q', '\n']).2 <
        (['p', '\n', 'q', '\n'] : List Char).length) ∧
    (Code.new (List.replicate 8 ' ') "rust").smartPasteText 8 ['p', '\n', 'q', '\n'] ≠
      joinNl (rustLines ['p', '\n', 'q', '\n']) := by
  decide

/-- C10 amended: for a non-empty indent unit and text ending in `'\n'`,
the string `smart_paste` inserts is the newline-join of the processed
(first-trimmed / re-indented) lines; it contains exactly `lines − 1`
newline characters — strictly fewer than the text, whose trailing newline
is dropped — but its total character count may exceed the text's because
of re-indentation.  (The empty-indent-unit verbatim branch is unreachable
through `Code::indent`: `utils::indent` never returns an empty unit.) -/
theorem claim_c10_amended :
    (∀ (c : Code) (offset : Nat) (text : List Char),
      text.getLast? = some '\n' →
      (c.smartPasteText offset text).count '\n' = (rustLines text).length - 1 ∧
      text.count '\n' = (rustLines text).length ∧
      (c.smartPasteText offset text).count '\n' < text.count '\n' ∧
      (c.smartPaste offset text).1.content =
        insertAt offset (c.smartPasteText offset text) c.content ∧
      (c.smartPaste offset text).2 = (c.smartPasteText offset text).length) ∧
    (∀ lang : String, utilsIndent lang ≠ []) := by
  have hunit : ∀ lang : String, utilsIndent lang ≠ [] := by
    intro lang
    unfold utilsIndent
    split <;> simp
  refine ⟨?_, hunit⟩
  intro c offset text hend
  have hu : c.indent ≠ [] := hunit c.lang
  have hemp : c.indent.isEmpty = false := by
    cases hh : c.indent with
    | nil => exact absurd hh hu
    | cons x xs => rfl
  have htne : text ≠ [] := by
    intro h
    rw [h] at hend
    simp at hend
  have hunl : '\n' ∉ c.indent := nlFree_utilsIndent c.lang
  cases hl : rustLines text with
  | nil => exact absurd hl (rustLines_ne_nil text htne)
  | cons l0 rest =>
    have htext : c.smartPasteText offset text =
        joinNl (trimStart l0 ::
          smartLinesGo c.indent (rest.map (fun l => (l, unitLevel c.indent l)))
            (c.indentationLevel (c.point offset).1 (c.point offset).2)
            (unitLevel c.indent l0)) := by
      rw [Code.smartPasteText, hemp, hl]
      simp only [Bool.false_eq_true, if_false]
    have hpieces : ∀ l ∈ trimStart l0 ::
        smartLinesGo c.indent (rest.map (fun l => (l, unitLevel c.indent l)))
          (c.indentationLevel (c.point offset).1 (c.point offset).2)
          (unitLevel c.indent l0), '\n' ∉ l := by
      intro l hlm
      rcases List.mem_cons.mp hlm with h | h
      · rw [h]
        exact nlFree_trimStart l0 (rustLines_nlFree text l0 (by rw [hl]; simp))
      · refine smartLinesGo_nlFree c.indent hunl _ _ _ ?_ l h
        intro p hp
        obtain ⟨x, hx, hpx⟩ := List.mem_map.mp hp
        rw [← hpx]
        exact rustLines_nlFree text x (by rw [hl]; exact List.mem_cons_of_mem _ hx)
    have hcount1 : (c.smartPasteText offset text).count '\n' = rest.length := by
      rw [htext, count_nl_joinNl _ hpieces, List.length_cons, smartLinesGo_length,
        List.length_map]
      omega
    have hcount2 : text.count '\n' = rest.length + 1 := by
      rw [count_nl_rustLines text hend, hl]
      rfl
    refine ⟨?_, ?_, ?_, ?_, ?_⟩
    · rw [hcount1, List.length_cons]
      omega
    · rw [hcount2, List.length_cons]
    · rw [hcount1, hcount2]
      omega
    · simp only [Code.smartPaste, hemp, Bool.false_eq_true, if_false]
      rw [if_neg (by rw [hl]; simp)]
      show ((c.insert offset (c.smartPasteText offset text)).content) = _
      rw [Code.insert_content]
    · simp only [Code.smartPaste, hemp, Bool.false_eq_true, if_false]
      rw [if_neg (by rw [hl]; simp)]

/-- Witness for C10 at the concrete paste "a\n" into a "rust" buffer. -/
theorem claim_c10_witness :
    ((Code.new ['x'] "rust").smartPasteText 0 ['a', '\n']).count '\n' =
        (rustLines ['a', '\n']).length - 1 ∧
      (['a', '\n'] : List Char).count '\n' = (rustLines ['a', '\n']).length ∧
      ((Code.new ['x'] "rust").smartPasteText 0 ['a', '\n']).count '\n' <
        (['a', '\n'] : List Char).count '\n' ∧
      ((Code.new ['x'] "rust").smartPaste 0 ['a', '\n']).1.content =
        insertAt 0 ((Code.new ['x'] "rust").smartPasteText 0 ['a', '\n']) ['x'] ∧
      ((Code.new ['x'] "rust").smartPaste 0 ['a', '\n']).2 =
        ((Code.new ['x'] "rust").smartPasteText 0 ['a', '\n']).length :=
  claim_c10_amended.1 (Code.new ['x'] "rust") 0 ['a', '\n'] (by decide)

/-! ## Claim C5: ToggleComment applied twice

The loops of `ToggleComment::apply` insert or strip the comment marker at
the start of each affected line, iterating the rows in reverse
(descending) order, recomputing `line_to_char` on the buffer as it
mutates.  The development below works on the content and its `linesOf`
decomposition. -/

/-- `line_to_char` at the content level. -/
def lineStart (x : List Char) (r : Nat) : Nat :=
  (((linesOf x).take r).flatten).length

/-- `Code::line_len` at the content level. -/
def lineLenC (x : List Char) (r : Nat) : Nat :=
  if r = (linesOf x).length - 1 then ((linesOf x).getD r []).length
  else ((linesOf x).getD r []).length - 1

/-- The all-lines-already-commented test of `ToggleComment::apply` (step
4): each affected line is at least as long as the marker and starts with
it. -/
def allHaveC (m : List Char) (rows : List Nat) (x : List Char) : Bool :=
  rows.all (fun r =>
    decide (m.length ≤ lineLenC x r) &&
    decide (sliceAt (lineStart x r) (lineStart x r + m.length) x = m))

/-- The add loop of `ToggleComment::apply` (step 5, else-branch): insert
the marker at each affected line's start, rows processed in reverse so
earlier rows' offsets are unaffected. -/
def addLoopC (m : List Char) (rows : List Nat) (x : List Char) : List Char :=
  rows.foldr (fun r t => insertAt (lineStart t r) m t) x

/-- The strip loop of `ToggleComment::apply` (step 5, then-branch):
remove one marker from each affected line that starts with it, rows
processed in reverse. -/
def removeLoopC (m : List Char) (rows : List Nat) (x : List Char) : List Char :=
  rows.foldr (fun r t =>
    if sliceAt (lineStart t r) (lineStart t r + m.length) t = m then
      removeAt (lineStart t r) (lineStart t r + m.length) t
    else t) x

/-- The branch structure of `ToggleComment::apply` at the content level:
strip from every line when all affected lines start with the marker,
otherwise prepend to every line. -/
def toggleCommentC (m : List Char) (rows : List Nat) (x : List Char) : List Char :=
  if allHaveC m rows x then removeLoopC m rows x else addLoopC m rows x

/-- Apply `f` to the pieces whose (offset-adjusted) index is in `rows`. -/
def applyRowsGo (f : List Char → List Char) (rows : List Nat) :
    Nat → List (List Char) → List (List Char)
  | _, [] => []
  | i, l :: ls => (if i ∈ rows then f l else l) :: applyRowsGo f rows (i + 1) ls

/-- Apply `f` to the pieces at the indices in `rows`. -/
def applyRows (f : List Char → List Char) (rows : List Nat)
    (ls : List (List Char)) : List (List Char) :=
  applyRowsGo f rows 0 ls

/-- Splicing into the flattening at a piece boundary rewrites one piece. -/
theorem insert_flatten_set (ls : List (List Char)) (r : Nat) (m : List Char)
    (hr : r < ls.length) :
    insertAt ((ls.take r).flatten.length) m ls.flatten =
      (ls.set r (m ++ ls.getD r [])).flatten := by
  have hsplit : ls.flatten = (ls.take r).flatten ++ (ls.drop r).flatten := by
    rw [← List.flatten_append, List.take_append_drop]
  have hdrop : ls.drop r = ls.getD r [] :: ls.drop (r + 1) := by
    rw [List.drop_eq_getElem_cons hr, List.getD_eq_getElem ls [] hr]
  have htake : (insertAt ((ls.take r).flatten.length) m ls.flatten) =
      (ls.take r).flatten ++ m ++ (ls.drop r).flatten := by
    rw [insertAt, hsplit]
    rw [List.take_left, List.drop_left]
  rw [htake]
  rw [List.set_eq_take_cons_drop _ hr]
  rw [List.flatten_append]
  rw [show ((m ++ ls.getD r []) :: ls.drop (r + 1)).flatten =
    (m ++ ls.getD r []) ++ (ls.drop (r + 1)).flatten from rfl]
  rw [hdrop]
  rw [show (ls.getD r [] :: ls.drop (r + 1)).flatten =
    ls.getD r [] ++ (ls.drop (r + 1)).flatten from rfl]
  simp [List.append_assoc]

/-- Slicing a marker-length prefix at a piece boundary returns the
marker when the piece starts with it. -/
theorem slice_lineStart (ls : List (List Char)) (r : Nat) (m tail : List Char)
    (hr : r < ls.length) (hpre : ls.getD r [] = m ++ tail) :
    sliceAt ((ls.take r).flatten.length) ((ls.take r).flatten.length + m.length)
      ls.flatten = m := by
  have hsplit : ls.flatten = (ls.take r).flatten ++ (ls.drop r).flatten := by
    rw [← List.flatten_append, List.take_append_drop]
  have hdrop : ls.drop r = ls.getD r [] :: ls.drop (r + 1) := by
    rw [List.drop_eq_getElem_cons hr, List.getD_eq_getElem ls [] hr]
  rw [sliceAt, List.drop_take]
  have h1 : (ls.take r).flatten.length + m.length - (ls.take r).flatten.length =
      m.length := by omega
  rw [h1, hsplit, List.drop_left]
  rw [hdrop]
  rw [show (ls.getD r [] :: ls.drop (r + 1)).flatten =
    ls.getD r [] ++ (ls.drop (r + 1)).flatten from rfl]
  rw [hpre]
  rw [List.append_assoc]
  exact List.take_left m _

/-- Removing a marker-length prefix at a piece boundary rewrites one
piece. -/
theorem remove_flatten_set (ls : List (List Char)) (r : Nat) (m tail : List Char)
    (hr : r < ls.length) (hpre : ls.getD r [] = m ++ tail) :
    removeAt ((ls.take r).flatten.length) ((ls.take r).flatten.length + m.length)
      ls.flatten = (ls.set r tail).flatten := by
  have hsplit : ls.flatten = (ls.take r).flatten ++ (ls.drop r).flatten := by
    rw [← List.flatten_append, List.take_append_drop]
  have hdrop : ls.drop r = ls.getD r [] :: ls.drop (r + 1) := by
    rw [List.drop_eq_getElem_cons hr, List.getD_eq_getElem ls [] hr]
  have hB : (ls.drop r).flatten = m ++ (tail ++ (ls.drop (r + 1)).flatten) := by
    rw [hdrop]
    rw [show (ls.getD r [] :: ls.drop (r + 1)).flatten =
      ls.getD r [] ++ (ls.drop (r + 1)).flatten from rfl]
    rw [hpre, List.append_assoc]
  rw [removeAt, hsplit]
  rw [List.take_left]
  have hdrop2 : ((ls.take r).flatten ++ (ls.drop r).flatten).drop
      ((ls.take r).flatten.length + m.length) = tail ++ (ls.drop (r + 1)).flatten := by
    rw [← List.drop_drop, List.drop_left, hB, List.drop_left]
  rw [hdrop2]
  rw [List.set_eq_take_cons_drop _ hr, List.flatten_append]
  rw [show (tail :: ls.drop (r + 1)).flatten = tail ++ (ls.drop (r + 1)).flatten from rfl]

theorem applyRowsGo_length (f : List Char → List Char) (rows : List Nat) :
    ∀ (i : Nat) (ls : List (List Char)),
      (applyRowsGo f rows i ls).length = ls.length := by
  intro i ls
  induction ls generalizing i with
  | nil => rfl
  | cons l ls ih =>
    rw [applyRowsGo, List.length_cons, List.length_cons, ih]

theorem applyRowsGo_getD (f : List Char → List Char) (rows : List Nat) :
    ∀ (ls : List (List Char)) (i r : Nat), r < ls.length →
      (applyRowsGo f rows i ls).getD r [] =
        if (i + r) ∈ rows then f (ls.getD r []) else ls.getD r [] := by
  intro ls
  induction ls with
  | nil => intro i r hr; simp at hr
  | cons l ls ih =>
    intro i r hr
    cases r with
    | zero =>
      show (if i ∈ rows then f l else l) = if (i + 0) ∈ rows then f l else l
      rw [Nat.add_zero]
    | succ r =>
      show (applyRowsGo f rows (i + 1) ls).getD r [] = _
      rw [ih (i + 1) r (by simpa using Nat.lt_of_succ_lt_succ hr)]
      have hs : i + 1 + r = i + (r + 1) := by omega
      rw [hs]
      rfl

theorem applyRowsGo_skip (f : List Char → List Char) (rows : List Nat) (a : Nat) :
    ∀ (ls : List (List Char)) (i : Nat), a < i →
      applyRowsGo f (a :: rows) i ls = applyRowsGo f rows i ls := by
  intro ls
  induction ls with
  | nil => intro i _; rfl
  | cons l ls ih =>
    intro i hi
    rw [applyRowsGo, applyRowsGo]
    have hne : ¬ i = a := by omega
    rw [ih (i + 1) (by omega)]
    congr 1
    by_cases hm : i ∈ rows
    · rw [if_pos hm, if_pos (List.mem_cons_of_mem a hm)]
    · rw [if_neg hm, if_neg (by
        rw [List.mem_cons]
        rintro (h | h)
        · exact hne h
        · exact hm h)]

theorem applyRowsGo_set_cons (f : List Char → List Char) (rows : List Nat) :
    ∀ (ls : List (List Char)) (i r : Nat), r < ls.length → (i + r) ∉ rows →
      (applyRowsGo f rows i ls).set r (f (ls.getD r [])) =
        applyRowsGo f ((i + r) :: rows) i ls := by
  intro ls
  induction ls with
  | nil => intro i r hr _; simp at hr
  | cons l ls ih =>
    intro i r hr hnotin
    cases r with
    | zero =>
      show f l :: applyRowsGo f rows (i + 1) ls =
        (if i ∈ i :: rows then f l else l) ::
          applyRowsGo f (i :: rows) (i + 1) ls
      rw [if_pos (List.mem_cons_self i rows)]
      rw [applyRowsGo_skip f rows i ls (i + 1) (by omega)]
    | succ r =>
      show (if i ∈ rows then f l else l) ::
          (applyRowsGo f rows (i + 1) ls).set r (f (ls.getD r [])) =
        (if i ∈ (i + (r + 1)) :: rows then f l else l) ::
          applyRowsGo f ((i + (r + 1)) :: rows) (i + 1) ls
      congr 1
      · by_cases hm : i ∈ rows
        · rw [if_pos hm, if_pos (List.mem_cons_of_mem _ hm)]
        · rw [if_neg hm, if_neg (by
            rw [List.mem_cons]
            rintro (h | h)
            · omega
            · exact hm h)]
      · have hs : i + (r + 1) = (i + 1) + r := by omega
        rw [hs]
        refine ih (i + 1) r ?_ (by rw [← hs]; exact hnotin)
        have hc : (l :: ls).length = ls.length + 1 := rfl
        omega

theorem applyRowsGo_comp (f g : List Char → List Char) (rows : List Nat) :
    ∀ (ls : List (List Char)) (i : Nat),
      applyRowsGo f rows i (applyRowsGo g rows i ls) =
        applyRowsGo (fun l => f (g l)) rows i ls := by
  intro ls
  induction ls with
  | nil => intro i; rfl
  | cons l ls ih =>
    intro i
    rw [applyRowsGo, applyRowsGo, applyRowsGo]
    rw [ih (i + 1)]
    congr 1
    by_cases hm : i ∈ rows
    · rw [if_pos hm, if_pos hm, if_pos hm]
    · rw [if_neg hm, if_neg hm, if_neg hm]

theorem applyRowsGo_id (f : List Char → List Char) (rows : List Nat)
    (hf : ∀ l, f l = l) :
    ∀ (ls : List (List Char)) (i : Nat), applyRowsGo f rows i ls = ls := by
  intro ls
  induction ls with
  | nil => intro i; rfl
  | cons l ls ih =>
    intro i
    rw [applyRowsGo, ih (i + 1)]
    congr 1
    split <;> simp [hf]

/-- Indexed characterization of a valid line decomposition. -/
theorem validLines_iff_kinds : ∀ (ls : List (List Char)), ls ≠ [] →
    (ValidLines ls ↔
      ((∀ j, j + 1 < ls.length → NlTerm (ls.getD j [])) ∧
       (∀ j, j + 1 = ls.length → NlFree (ls.getD j [])))) := by
  intro ls
  induction ls with
  | nil => intro h; exact absurd rfl h
  | cons l ls ih =>
    intro _
    cases ls with
    | nil =>
      constructor
      · intro hv
        refine ⟨fun j hj => by simp at hj, fun j hj => ?_⟩
        have : j = 0 := by simpa using hj
        subst this
        exact hv
      · intro ⟨_, h2⟩
        exact h2 0 rfl
    | cons l2 ls2 =>
      have hc : (l :: l2 :: ls2).length = (l2 :: ls2).length + 1 := rfl
      constructor
      · intro ⟨h1, h2⟩
        have hrec := (ih (by simp)).mp h2
        refine ⟨fun j hj => ?_, fun j hj => ?_⟩
        · cases j with
          | zero => exact h1
          | succ j => exact hrec.1 j (by omega)
        · cases j with
          | zero => simp at hj
          | succ j => exact hrec.2 j (by omega)
      · intro ⟨h1, h2⟩
        refine ⟨h1 0 (by simp), (ih (by simp)).mpr ⟨fun j hj => ?_, fun j hj => ?_⟩⟩
        · exact h1 (j + 1) (by omega)
        · exact h2 (j + 1) (by omega)

theorem validLines_ne_nil (ls : List (List Char)) (hv : ValidLines ls) : ls ≠ [] := by
  cases ls with
  | nil => exact absurd hv (by simp [ValidLines])
  | cons l ls => simp

theorem nlFree_append_marker (m l : List Char) (hm : '\n' ∉ m) (h : NlFree l) :
    NlFree (m ++ l) := by
  intro hmem
  rcases List.mem_append.mp hmem with h1 | h1
  · exact hm h1
  · exact h h1

theorem nlTerm_append_marker (m l : List Char) (hm : '\n' ∉ m) (h : NlTerm l) :
    NlTerm (m ++ l) := by
  obtain ⟨b, hb, he⟩ := h
  exact ⟨m ++ b, nlFree_append_marker m b hm hb, by rw [he, List.append_assoc]⟩

theorem nlFree_drop (k : Nat) (l : List Char) (h : NlFree l) : NlFree (l.drop k) :=
  fun hm => h ((List.drop_sublist k l).mem hm)

/-- Dropping a newline-free prefix off a newline-terminated piece leaves a
newline-terminated piece. -/
theorem nlTerm_drop_marker (m tail : List Char) (hm : '\n' ∉ m)
    (h : NlTerm (m ++ tail)) : NlTerm tail := by
  obtain ⟨b, hb, he⟩ := h
  have htail_ne : tail ≠ [] := by
    intro hz
    rw [hz, List.append_nil] at he
    apply hm
    rw [he]
    exact List.mem_append.mpr (Or.inr (by simp))
  have hlast : tail.getLast htail_ne = '\n' := by
    have h1 : (m ++ tail).getLast (by simp [htail_ne]) = tail.getLast htail_ne :=
      List.getLast_append_of_ne_nil htail_ne
    have h2 : (m ++ tail).getLast (by simp [htail_ne]) = '\n' := by
      simp only [he]
      exact List.getLast_append_singleton b
    rw [← h1, h2]
  have hsplit : tail = tail.dropLast ++ [tail.getLast htail_ne] :=
    (List.dropLast_append_getLast htail_ne).symm
  refine ⟨tail.dropLast, ?_, by rw [hlast] at hsplit; exact hsplit⟩
  intro hmem
  have hb2 : b = m ++ tail.dropLast := by
    have h3 : (m ++ tail).dropLast = b := by rw [he, List.dropLast_concat]
    have h4 : (m ++ tail).dropLast = m ++ tail.dropLast :=
      List.dropLast_append_of_ne_nil m htail_ne
    rw [← h3, h4]
  apply hb
  rw [hb2]
  exact List.mem_append.mpr (Or.inr hmem)

/-- Validity is preserved by per-row piece transformations that preserve
each touched piece's kind. -/
theorem validLines_applyRows_cond (ls : List (List Char)) (rows : List Nat)
    (f : List Char → List Char) (hv : ValidLines ls)
    (hkind : ∀ j, j < ls.length → j ∈ rows →
      (NlTerm (ls.getD j []) → NlTerm (f (ls.getD j []))) ∧
      (NlFree (ls.getD j []) → NlFree (f (ls.getD j [])))) :
    ValidLines (applyRows f rows ls) := by
  have hne : ls ≠ [] := validLines_ne_nil ls hv
  have hlen : (applyRows f rows ls).length = ls.length := applyRowsGo_length f rows 0 ls
  have hne2 : applyRows f rows ls ≠ [] := by
    intro hz
    rw [hz] at hlen
    exact hne (List.length_eq_zero.mp hlen.symm)
  have hkinds := (validLines_iff_kinds ls hne).mp hv
  rw [validLines_iff_kinds _ hne2]
  refine ⟨fun j hj => ?_, fun j hj => ?_⟩
  · rw [hlen] at hj
    rw [show (applyRows f rows ls) = applyRowsGo f rows 0 ls from rfl]
    rw [applyRowsGo_getD f rows ls 0 j (by omega), Nat.zero_add]
    by_cases hm : j ∈ rows
    · rw [if_pos hm]
      exact (hkind j (by omega) hm).1 (hkinds.1 j hj)
    · rw [if_neg hm]
      exact hkinds.1 j hj
  · rw [hlen] at hj
    rw [show (applyRows f rows ls) = applyRowsGo f rows 0 ls from rfl]
    rw [applyRowsGo_getD f rows ls 0 j (by omega), Nat.zero_add]
    by_cases hm : j ∈ rows
    · rw [if_pos hm]
      exact (hkind j (by omega) hm).2 (hkinds.2 j hj)
    · rw [if_neg hm]
      exact hkinds.2 j hj

theorem applyRowsGo_nil_rows (f : List Char → List Char) :
    ∀ (ls : List (List Char)) (i : Nat), applyRowsGo f [] i ls = ls := by
  intro ls
  induction ls with
  | nil => intro i; rfl
  | cons l ls ih =>
    intro i
    rw [applyRowsGo, ih (i + 1)]
    rw [if_neg (by simp)]

/-- The add loop rewrites exactly the affected lines, prepending the
marker to each. -/
theorem addLoopC_lines (m : List Char) (hm : '\n' ∉ m) :
    ∀ (rows : List Nat) (x : List Char), List.Pairwise (· < ·) rows →
      (∀ r ∈ rows, r < (linesOf x).length) →
      linesOf (addLoopC m rows x) =
        applyRows (fun l => m ++ l) rows (linesOf x) := by
  intro rows
  induction rows with
  | nil =>
    intro x _ _
    rw [addLoopC, List.foldr_nil]
    rw [show applyRows (fun l => m ++ l) [] (linesOf x) =
      applyRowsGo (fun l => m ++ l) [] 0 (linesOf x) from rfl]
    rw [applyRowsGo_nil_rows]
  | cons r rest ih =>
    intro x hsort hvalid
    have hsort2 := (List.pairwise_cons.mp hsort).2
    have hlt := (List.pairwise_cons.mp hsort).1
    have hnotin : r ∉ rest := fun hmem => by
      have := hlt r hmem
      omega
    have hx := ih x hsort2 (fun a ha => hvalid a (List.mem_cons_of_mem r ha))
    have hr : r < (linesOf x).length := hvalid r (by simp)
    have hvls : ValidLines (linesOf x) := validLines_linesOf x
    have hvX : ValidLines (applyRows (fun l => m ++ l) rest (linesOf x)) :=
      validLines_applyRows_cond _ rest _ hvls
        (fun j _ _ => ⟨nlTerm_append_marker m _ hm, nlFree_append_marker m _ hm⟩)
    have hlenX : (applyRows (fun l => m ++ l) rest (linesOf x)).length =
        (linesOf x).length := applyRowsGo_length _ rest 0 _
    have hstep : addLoopC m (r :: rest) x =
        insertAt (lineStart (addLoopC m rest x) r) m (addLoopC m rest x) := by
      rw [addLoopC, List.foldr_cons]
      rfl
    have hXflat : (applyRows (fun l => m ++ l) rest (linesOf x)).flatten =
        addLoopC m rest x := by
      rw [← hx]
      exact flatten_linesOf _
    have hlineStart : lineStart (addLoopC m rest x) r =
        ((applyRows (fun l => m ++ l) rest (linesOf x)).take r).flatten.length := by
      rw [lineStart, hx]
    rw [hstep, hlineStart, ← hXflat]
    rw [insert_flatten_set _ r m (by rw [hlenX]; exact hr)]
    have hgetD : (applyRows (fun l => m ++ l) rest (linesOf x)).getD r [] =
        (linesOf x).getD r [] := by
      rw [show applyRows (fun l => m ++ l) rest (linesOf x) =
        applyRowsGo (fun l => m ++ l) rest 0 (linesOf x) from rfl]
      rw [applyRowsGo_getD _ rest _ 0 r hr, Nat.zero_add, if_neg hnotin]
    rw [hgetD]
    have hset := applyRowsGo_set_cons (fun l => m ++ l) rest (linesOf x) 0 r hr
      (by rw [Nat.zero_add]; exact hnotin)
    rw [Nat.zero_add] at hset
    rw [show (applyRows (fun l => m ++ l) rest (linesOf x)).set r
        (m ++ (linesOf x).getD r []) =
      (applyRowsGo (fun l => m ++ l) rest 0 (linesOf x)).set r
        ((fun l => m ++ l) ((linesOf x).getD r [])) from rfl]
    rw [hset]
    have hvset : ValidLines (applyRowsGo (fun l => m ++ l) (r :: rest) 0 (linesOf x)) :=
      validLines_applyRows_cond _ (r :: rest) _ hvls
        (fun j _ _ => ⟨nlTerm_append_marker m _ hm, nlFree_append_marker m _ hm⟩)
    exact linesOf_flatten _ hvset

/-- The kind of a piece known to start with a newline-free marker is
preserved by dropping the marker. -/
theorem kind_drop_marker (m : List Char) (hm : '\n' ∉ m)
    (ls : List (List Char)) (j : Nat) (hpre : ∃ t, ls.getD j [] = m ++ t) :
    (NlTerm (ls.getD j []) → NlTerm ((ls.getD j []).drop m.length)) ∧
    (NlFree (ls.getD j []) → NlFree ((ls.getD j []).drop m.length)) := by
  obtain ⟨t, ht⟩ := hpre
  constructor
  · intro hterm
    rw [ht, List.drop_left]
    rw [ht] at hterm
    exact nlTerm_drop_marker m t hm hterm
  · intro hfree
    exact nlFree_drop m.length _ hfree

/-- The strip loop rewrites exactly the affected lines, dropping the
marker off each, provided each affected line starts with the marker. -/
theorem removeLoopC_lines (m : List Char) (hm : '\n' ∉ m) :
    ∀ (rows : List Nat) (x : List Char), List.Pairwise (· < ·) rows →
      (∀ r ∈ rows, r < (linesOf x).length) →
      (∀ r ∈ rows, ∃ t, (linesOf x).getD r [] = m ++ t) →
      linesOf (removeLoopC m rows x) =
        applyRows (fun l => l.drop m.length) rows (linesOf x) := by
  intro rows
  induction rows with
  | nil =>
    intro x _ _ _
    rw [removeLoopC, List.foldr_nil]
    rw [show applyRows (fun l => l.drop m.length) [] (linesOf x) =
      applyRowsGo (fun l => l.drop m.length) [] 0 (linesOf x) from rfl]
    rw [applyRowsGo_nil_rows]
  | cons r rest ih =>
    intro x hsort hvalid hpre
    have hsort2 := (List.pairwise_cons.mp hsort).2
    have hlt := (List.pairwise_cons.mp hsort).1
    have hnotin : r ∉ rest := fun hmem => by
      have := hlt r hmem
      omega
    have hx := ih x hsort2 (fun a ha => hvalid a (List.mem_cons_of_mem r ha))
      (fun a ha => hpre a (List.mem_cons_of_mem r ha))
    have hr : r < (linesOf x).length := hvalid r (by simp)
    have hvls : ValidLines (linesOf x) := validLines_linesOf x
    have hvX : ValidLines (applyRows (fun l => l.drop m.length) rest (linesOf x)) :=
      validLines_applyRows_cond _ rest _ hvls
        (fun j _ hj => kind_drop_marker m hm _ j
          (hpre j (List.mem_cons_of_mem r hj)))
    have hlenX : (applyRows (fun l => l.drop m.length) rest (linesOf x)).length =
        (linesOf x).length := applyRowsGo_length _ rest 0 _
    have hstep : removeLoopC m (r :: rest) x =
        (if sliceAt (lineStart (removeLoopC m rest x) r)
            (lineStart (removeLoopC m rest x) r + m.length)
            (removeLoopC m rest x) = m then
          removeAt (lineStart (removeLoopC m rest x) r)
            (lineStart (removeLoopC m rest x) r + m.length)
            (removeLoopC m rest x)
        else removeLoopC m rest x) := by
      rw [removeLoopC, List.foldr_cons]
      rfl
    have hXflat : (applyRows (fun l => l.drop m.length) rest (linesOf x)).flatten =
        removeLoopC m rest x := by
      rw [← hx]
      exact flatten_linesOf _
    have hlineStart : lineStart (removeLoopC m rest x) r =
        ((applyRows (fun l => l.drop m.length) rest (linesOf x)).take r).flatten.length := by
      rw [lineStart, hx]
    obtain ⟨tail, htail⟩ := hpre r (by simp)
    have hgetD : (applyRows (fun l => l.drop m.length) rest (linesOf x)).getD r [] =
        (linesOf x).getD r [] := by
      rw [show applyRows (fun l => l.drop m.length) rest (linesOf x) =
        applyRowsGo (fun l => l.drop m.length) rest 0 (linesOf x) from rfl]
      rw [applyRowsGo_getD _ rest _ 0 r hr, Nat.zero_add, if_neg hnotin]
    have hpreX : (applyRows (fun l => l.drop m.length) rest (linesOf x)).getD r [] =
        m ++ tail := by rw [hgetD, htail]
    have hslice : sliceAt (lineStart (removeLoopC m rest x) r)
        (lineStart (removeLoopC m rest x) r + m.length)
        (removeLoopC m rest x) = m := by
      rw [hlineStart, ← hXflat]
      exact slice_lineStart _ r m tail (by rw [hlenX]; exact hr) hpreX
    rw [hstep, if_pos hslice, hlineStart, ← hXflat]
    rw [remove_flatten_set _ r m tail (by rw [hlenX]; exact hr) hpreX]
    have htail2 : tail = ((linesOf x).getD r []).drop m.length := by
      rw [htail, List.drop_left]
    rw [htail2]
    have hset := applyRowsGo_set_cons (fun l => l.drop m.length) rest (linesOf x) 0 r hr
      (by rw [Nat.zero_add]; exact hnotin)
    rw [Nat.zero_add] at hset
    rw [show (applyRows (fun l => l.drop m.length) rest (linesOf x)).set r
        (((linesOf x).getD r []).drop m.length) =
      (applyRowsGo (fun l => l.drop m.length) rest 0 (linesOf x)).set r
        ((fun l => l.drop m.length) ((linesOf x).getD r [])) from rfl]
    rw [hset]
    have hvset : ValidLines
        (applyRowsGo (fun l => l.drop m.length) (r :: rest) 0 (linesOf x)) :=
      validLines_applyRows_cond _ (r :: rest) _ hvls
        (fun j _ hj => kind_drop_marker m hm _ j (hpre j hj))
    exact linesOf_flatten _ hvset

theorem nlTerm_length_pos (l : List Char) (h : NlTerm l) : 1 ≤ l.length := by
  obtain ⟨b, _, he⟩ := h
  rw [he]
  simp

/-- After the add loop, every affected line starts with the marker and is
long enough, so the all-commented test succeeds. -/
theorem allHaveC_addLoopC (m : List Char) (rows : List Nat) (x : List Char)
    (hm : '\n' ∉ m) (hsort : List.Pairwise (· < ·) rows)
    (hvalid : ∀ r ∈ rows, r < (linesOf x).length) :
    allHaveC m rows (addLoopC m rows x) = true := by
  have hX := addLoopC_lines m hm rows x hsort hvalid
  have hne : linesOf x ≠ [] := validLines_ne_nil _ (validLines_linesOf x)
  have hkinds := (validLines_iff_kinds (linesOf x) hne).mp (validLines_linesOf x)
  have hlenX : (applyRows (fun l => m ++ l) rows (linesOf x)).length =
      (linesOf x).length := applyRowsGo_length _ rows 0 _
  have hXflat : (applyRows (fun l => m ++ l) rows (linesOf x)).flatten =
      addLoopC m rows x := by
    rw [← hX]
    exact flatten_linesOf _
  rw [allHaveC]
  apply List.all_eq_true.mpr
  intro r hrmem
  have hr : r < (linesOf x).length := hvalid r hrmem
  have hgr : (applyRows (fun l => m ++ l) rows (linesOf x)).getD r [] =
      m ++ (linesOf x).getD r [] := by
    rw [show applyRows (fun l => m ++ l) rows (linesOf x) =
      applyRowsGo (fun l => m ++ l) rows 0 (linesOf x) from rfl]
    rw [applyRowsGo_getD _ rows _ 0 r hr, Nat.zero_add, if_pos hrmem]
  rw [Bool.and_eq_true, decide_eq_true_eq, decide_eq_true_eq]
  constructor
  · rw [lineLenC, hX, hgr, List.length_append]
    by_cases hlast : r = (applyRows (fun l => m ++ l) rows (linesOf x)).length - 1
    · rw [if_pos hlast]
      omega
    · rw [if_neg hlast]
      rw [hlenX] at hlast
      have hterm : NlTerm ((linesOf x).getD r []) := hkinds.1 r (by omega)
      have := nlTerm_length_pos _ hterm
      omega
  · rw [lineStart, hX, ← hXflat]
    exact slice_lineStart _ r m _ (by rw [hlenX]; exact hr) hgr

/-- The strip loop undoes the add loop exactly. -/
theorem removeLoopC_addLoopC (m : List Char) (rows : List Nat) (x : List Char)
    (hm : '\n' ∉ m) (hsort : List.Pairwise (· < ·) rows)
    (hvalid : ∀ r ∈ rows, r < (linesOf x).length) :
    removeLoopC m rows (addLoopC m rows x) = x := by
  have hX := addLoopC_lines m hm rows x hsort hvalid
  have hlenX : (linesOf (addLoopC m rows x)).length = (linesOf x).length := by
    rw [hX]
    exact applyRowsGo_length _ rows 0 _
  have hR := removeLoopC_lines m hm rows (addLoopC m rows x) hsort
    (fun r hrmem => by rw [hlenX]; exact hvalid r hrmem)
    (fun r hrmem => by
      refine ⟨(linesOf x).getD r [], ?_⟩
      rw [hX]
      rw [show applyRows (fun l => m ++ l) rows (linesOf x) =
        applyRowsGo (fun l => m ++ l) rows 0 (linesOf x) from rfl]
      rw [applyRowsGo_getD _ rows _ 0 r (hvalid r hrmem), Nat.zero_add,
        if_pos hrmem])
  rw [hX] at hR
  rw [show applyRows (fun l => l.drop m.length) rows
      (applyRows (fun l => m ++ l) rows (linesOf x)) =
    applyRowsGo (fun l => l.drop m.length) rows 0
      (applyRowsGo (fun l => m ++ l) rows 0 (linesOf x)) from rfl] at hR
  rw [applyRowsGo_comp] at hR
  rw [applyRowsGo_id _ rows (fun l => List.drop_left m l) _ 0] at hR
  calc removeLoopC m rows (addLoopC m rows x)
      = (linesOf (removeLoopC m rows (addLoopC m rows x))).flatten :=
        (flatten_linesOf _).symm
    _ = (linesOf x).flatten := by rw [hR]
    _ = x := flatten_linesOf x

/-- Toggling comments twice on the same rows restores the text, when the
first toggle takes the prepend branch. -/
theorem toggleC_pair (m : List Char) (rows : List Nat) (x : List Char)
    (hm : '\n' ∉ m) (hsort : List.Pairwise (· < ·) rows)
    (hvalid : ∀ r ∈ rows, r < (linesOf x).length)
    (hnot : allHaveC m rows x = false) :
    toggleCommentC m rows (toggleCommentC m rows x) = x := by
  rw [show toggleCommentC m rows x = addLoopC m rows x from by
    rw [toggleCommentC, if_neg (by rw [hnot]; exact Bool.false_ne_true)]]
  rw [toggleCommentC,
    if_pos (allHaveC_addLoopC m rows x hm hsort hvalid)]
  exact removeLoopC_addLoopC m rows x hm hsort hvalid

/-- ropey invariant: a buffer with `k` newlines splits into `k + 1` lines. -/
theorem length_linesOf (x : List Char) :
    (linesOf x).length = x.count '\n' + 1 := by
  induction x with
  | nil => rfl
  | cons c cs ih =>
    rw [linesOf]
    by_cases hc : c = '\n'
    · rw [if_pos hc, List.length_cons, ih, List.count_cons]
      simp [hc]
    · rw [if_neg hc]
      cases hl : linesOf cs with
      | nil => exact absurd hl (linesOf_ne_nil cs)
      | cons l ls =>
        rw [hl] at ih
        rw [List.length_cons, List.count_cons]
        rw [List.length_cons] at ih
        simp only [beq_iff_eq, if_neg hc]
        omega

/-- The row returned by `Code::point` is a valid line index. -/
theorem point_row_lt_lenLines (c : Code) (off : Nat) :
    (c.point off).1 < c.lenLines := by
  show c.charToLine off < c.lenLines
  rw [Code.charToLine, Code.lenLines, length_linesOf]
  have h : (c.content.take off).count '\n' ≤ c.content.count '\n' :=
    (List.take_sublist off c.content).count_le '\n'
  omega

/-- The `lines_to_handle` computation of `ToggleComment::apply` (step 3):
the rows spanned by a non-empty selection, else the cursor's row. -/
def linesToHandle (c : Code) (cursor : Nat) (selection : Option Selection) :
    List Nat :=
  match selection with
  | some sel =>
    if sel.isEmpty then [(c.point cursor).1]
    else
      let se := sel.sorted
      let startRow := (c.point se.1).1
      let endRow := (c.point se.2).1
      (List.range (endRow + 1 - startRow)).map (fun i => startRow + i)
  | none => [(c.point cursor).1]

theorem linesToHandle_sorted (c : Code) (cursor : Nat)
    (selection : Option Selection) :
    List.Pairwise (· < ·) (linesToHandle c cursor selection) := by
  cases selection with
  | none => simp [linesToHandle]
  | some sel =>
    simp only [linesToHandle]
    by_cases he : sel.isEmpty
    · rw [if_pos he]
      simp
    · rw [if_neg he]
      exact List.Pairwise.map _ (fun a b hab => Nat.add_lt_add_left hab _)
        (List.pairwise_lt_range _)

theorem linesToHandle_valid (c : Code) (cursor : Nat)
    (selection : Option Selection) :
    ∀ r ∈ linesToHandle c cursor selection, r < c.lenLines := by
  intro r hr
  cases selection with
  | none =>
    simp only [linesToHandle] at hr
    rw [List.mem_singleton] at hr
    rw [hr]
    exact point_row_lt_lenLines c cursor
  | some sel =>
    simp only [linesToHandle] at hr
    by_cases he : sel.isEmpty
    · rw [if_pos he, List.mem_singleton] at hr
      rw [hr]
      exact point_row_lt_lenLines c cursor
    · rw [if_neg he] at hr
      obtain ⟨i, hi, hri⟩ := List.mem_map.mp hr
      rw [List.mem_range] at hi
      have hend := point_row_lt_lenLines c (sel.sorted).2
      omega

/-- The all-lines-already-commented test of `ToggleComment::apply` (step
4), verbatim: `line_start + comment_len <= line_start + line_len` and the
leading slice equals the marker. -/
def Code.allHaveComment (c : Code) (rows : List Nat) : Bool :=
  rows.all (fun r =>
    decide (c.lineToChar r + (c.comment).length ≤ c.lineToChar r + c.lineLen r) &&
    decide (c.sliceStr (c.lineToChar r) (c.lineToChar r + (c.comment).length) =
      c.comment))

/-- The add branch of the step-5 loop: rows in reverse, `code.insert` at
each line start. -/
def toggleAddLoop (m : List Char) (rows : List Nat) (c : Code) : Code :=
  rows.foldr (fun r code => code.insert (code.lineToChar r) m) c

/-- The remove branch of the step-5 loop: rows in reverse, strip the
marker when the leading slice matches it. -/
def toggleRemoveLoop (m : List Char) (rows : List Nat) (c : Code) : Code :=
  rows.foldr (fun r code =>
    if code.sliceStr (code.lineToChar r) (code.lineToChar r + m.length) = m then
      code.remove (code.lineToChar r) (code.lineToChar r + m.length)
    else code) c

/-- The buffer-side pipeline of `ToggleComment::apply` (steps 2, 4, 5 and
7) over a given affected-row set: open a transaction, record the before
state, branch on the all-commented test, record the after state and
commit.  Steps 1, 6 and 8 recompute the editor's cursor and selection;
they only feed `set_state_after` and the editor fields, so the recorded
after state is taken as a parameter here. -/
def Code.toggleCommentBuffer (c0 : Code) (cursor : Nat)
    (selection : Option Selection) (rows : List Nat)
    (after : Nat × Option Selection) : Code :=
  let c := (c0.tx).setStateBefore cursor selection
  let m := c.comment
  let c2 := if c.allHaveComment rows then toggleRemoveLoop m rows c
    else toggleAddLoop m rows c
  (c2.setStateAfter after.1 after.2).commit

theorem commit_content (c : Code) : (c.commit).content = c.content := by
  rw [Code.commit]
  split <;> rfl

theorem commit_lang (c : Code) : (c.commit).lang = c.lang := by
  rw [Code.commit]
  split <;> rfl

theorem insert_lang (c : Code) (f : Nat) (t : List Char) :
    (c.insert f t).lang = c.lang := by
  rw [Code.insert]
  split <;> rfl

theorem remove_lang (c : Code) (f t : Nat) :
    (c.remove f t).lang = c.lang := by
  rw [Code.remove]
  split <;> rfl

theorem toggleAddLoop_content (m : List Char) :
    ∀ (rows : List Nat) (c : Code),
      (toggleAddLoop m rows c).content = addLoopC m rows c.content := by
  intro rows
  induction rows with
  | nil => intro c; rfl
  | cons r rest ih =>
    intro c
    rw [toggleAddLoop, List.foldr_cons, addLoopC, List.foldr_cons]
    rw [show (rest.foldr (fun r code => code.insert (code.lineToChar r) m) c) =
      toggleAddLoop m rest c from rfl]
    rw [show (rest.foldr (fun r t => insertAt (lineStart t r) m t) c.content) =
      addLoopC m rest c.content from rfl]
    rw [Code.insert_content]
    rw [show (toggleAddLoop m rest c).lineToChar r =
      lineStart (toggleAddLoop m rest c).content r from rfl]
    rw [ih c]

theorem toggleAddLoop_lang (m : List Char) :
    ∀ (rows : List Nat) (c : Code),
      (toggleAddLoop m rows c).lang = c.lang := by
  intro rows
  induction rows with
  | nil => intro c; rfl
  | cons r rest ih =>
    intro c
    rw [toggleAddLoop, List.foldr_cons]
    rw [show (rest.foldr (fun r code => code.insert (code.lineToChar r) m) c) =
      toggleAddLoop m rest c from rfl]
    rw [insert_lang, ih c]

theorem toggleRemoveLoop_content (m : List Char) :
    ∀ (rows : List Nat) (c : Code),
      (toggleRemoveLoop m rows c).content = removeLoopC m rows c.content := by
  intro rows
  induction rows with
  | nil => intro c; rfl
  | cons r rest ih =>
    intro c
    rw [toggleRemoveLoop, List.foldr_cons, removeLoopC, List.foldr_cons]
    rw [show (rest.foldr (fun r code =>
      if code.sliceStr (code.lineToChar r) (code.lineToChar r + m.length) = m then
        code.remove (code.lineToChar r) (code.lineToChar r + m.length)
      else code) c) = toggleRemoveLoop m rest c from rfl]
    rw [show (rest.foldr (fun r t =>
      if sliceAt (lineStart t r) (lineStart t r + m.length) t = m then
        removeAt (lineStart t r) (lineStart t r + m.length) t
      else t) c.content) = removeLoopC m rest c.content from rfl]
    have hslice : (toggleRemoveLoop m rest c).sliceStr
        ((toggleRemoveLoop m rest c).lineToChar r)
        ((toggleRemoveLoop m rest c).lineToChar r + m.length) =
      sliceAt (lineStart (removeLoopC m rest c.content) r)
        (lineStart (removeLoopC m rest c.content) r + m.length)
        (removeLoopC m rest c.content) := by
      rw [show (toggleRemoveLoop m rest c).sliceStr
          ((toggleRemoveLoop m rest c).lineToChar r)
          ((toggleRemoveLoop m rest c).lineToChar r + m.length) =
        sliceAt (lineStart (toggleRemoveLoop m rest c).content r)
          (lineStart (toggleRemoveLoop m rest c).content r + m.length)
          (toggleRemoveLoop m rest c).content from rfl]
      rw [ih c]
    by_cases hc : sliceAt (lineStart (removeLoopC m rest c.content) r)
        (lineStart (removeLoopC m rest c.content) r + m.length)
        (removeLoopC m rest c.content) = m
    · rw [if_pos (by rw [hslice]; exact hc), if_pos hc]
      rw [Code.remove_content]
      rw [show (toggleRemoveLoop m rest c).lineToChar r =
        lineStart (toggleRemoveLoop m rest c).content r from rfl]
      rw [ih c]
    · rw [if_neg (by rw [hslice]; exact hc), if_neg hc]
      exact ih c

theorem toggleRemoveLoop_lang (m : List Char) :
    ∀ (rows : List Nat) (c : Code),
      (toggleRemoveLoop m rows c).lang = c.lang := by
  intro rows
  induction rows with
  | nil => intro c; rfl
  | cons r rest ih =>
    intro c
    rw [toggleRemoveLoop, List.foldr_cons]
    rw [show (rest.foldr (fun r code =>
      if code.sliceStr (code.lineToChar r) (code.lineToChar r + m.length) = m then
        code.remove (code.lineToChar r) (code.lineToChar r + m.length)
      else code) c) = toggleRemoveLoop m rest c from rfl]
    split
    · rw [remove_lang, ih c]
    · exact ih c

theorem all_pointwise {α : Type} (f g : α → Bool) (h : ∀ a, f a = g a) :
    ∀ (l : List α), l.all f = l.all g := by
  intro l
  induction l with
  | nil => rfl
  | cons a l ih => rw [List.all_cons, List.all_cons, h a, ih]

/-- The step-4 test agrees with its content-level counterpart. -/
theorem allHaveComment_content (c : Code) (rows : List Nat) :
    c.allHaveComment rows = allHaveC (utilsComment c.lang) rows c.content := by
  rw [Code.allHaveComment, allHaveC]
  apply all_pointwise
  intro r
  have h1 : decide (c.lineToChar r + (c.comment).length ≤
      c.lineToChar r + c.lineLen r) =
      decide ((utilsComment c.lang).length ≤ lineLenC c.content r) := by
    rw [decide_eq_decide]
    rw [show c.comment = utilsComment c.lang from rfl]
    rw [show c.lineLen r = lineLenC c.content r from rfl]
    omega
  rw [h1]
  rfl

/-- Every line-comment marker in the `utils::comment` table is
newline-free. -/
theorem nlFree_utilsComment (lang : String) : '\n' ∉ utilsComment lang := by
  unfold utilsComment
  split <;> decide

/-- The toggle pipeline's effect on the buffer text is exactly the
content-level toggle with the language's marker. -/
theorem toggleCommentBuffer_content (c0 : Code) (cursor : Nat)
    (selection : Option Selection) (rows : List Nat)
    (after : Nat × Option Selection) :
    (c0.toggleCommentBuffer cursor selection rows after).content =
      toggleCommentC (utilsComment c0.lang) rows c0.content := by
  simp only [Code.toggleCommentBuffer]
  rw [commit_content]
  rw [show ∀ (x : Code), (x.setStateAfter after.1 after.2).content = x.content
    from fun x => rfl]
  have hA : ((c0.tx).setStateBefore cursor selection).allHaveComment rows =
      allHaveC (utilsComment c0.lang) rows c0.content := by
    rw [allHaveComment_content]
    rfl
  rw [toggleCommentC]
  by_cases h : allHaveC (utilsComment c0.lang) rows c0.content = true
  · rw [if_pos (by rw [hA]; exact h), if_pos h]
    rw [toggleRemoveLoop_content]
    rfl
  · rw [if_neg (by rw [hA]; exact h), if_neg h]
    rw [toggleAddLoop_content]
    rfl

/-- The toggle pipeline never changes the buffer's language. -/
theorem toggleCommentBuffer_lang (c0 : Code) (cursor : Nat)
    (selection : Option Selection) (rows : List Nat)
    (after : Nat × Option Selection) :
    (c0.toggleCommentBuffer cursor selection rows after).lang = c0.lang := by
  simp only [Code.toggleCommentBuffer]
  rw [commit_lang]
  rw [show ∀ (x : Code), (x.setStateAfter after.1 after.2).lang = x.lang
    from fun x => rfl]
  split
  · rw [toggleRemoveLoop_lang]
    rfl
  · rw [toggleAddLoop_lang]
    rfl

/-- **C5**: ToggleComment applied twice in succession over the same set of
affected lines restores the buffer text exactly: for every buffer, cursor
and selection, with `rows` the affected lines the first application
derives from them, if the first application prepends the comment marker to
each affected line (because not all of them started with it), the second
application finds all those lines starting with the marker and strips them
back, yielding the original text. -/
theorem claim_c5 (c0 : Code) (cursor : Nat) (selection : Option Selection)
    (rows : List Nat) (after1 after2 : Nat × Option Selection)
    (cursor2 : Nat) (selection2 : Option Selection)
    (hrows : rows = linesToHandle c0 cursor selection)
    (hnot : c0.allHaveComment rows = false) :
    (c0.toggleCommentBuffer cursor selection rows after1).allHaveComment rows
      = true ∧
    ((c0.toggleCommentBuffer cursor selection rows after1).toggleCommentBuffer
        cursor2 selection2 rows after2).content = c0.content := by
  have hm : '\n' ∉ utilsComment c0.lang := nlFree_utilsComment c0.lang
  have hsort : List.Pairwise (· < ·) rows := by
    rw [hrows]
    exact linesToHandle_sorted c0 cursor selection
  have hvalid : ∀ r ∈ rows, r < (linesOf c0.content).length := by
    intro r hr
    rw [hrows] at hr
    exact linesToHandle_valid c0 cursor selection r hr
  have hnotC : allHaveC (utilsComment c0.lang) rows c0.content = false := by
    rw [← allHaveComment_content]
    exact hnot
  have hc1content : (c0.toggleCommentBuffer cursor selection rows after1).content
      = addLoopC (utilsComment c0.lang) rows c0.content := by
    rw [toggleCommentBuffer_content, toggleCommentC,
      if_neg (by rw [hnotC]; exact Bool.false_ne_true)]
  have hc1lang : (c0.toggleCommentBuffer cursor selection rows after1).lang
      = c0.lang := toggleCommentBuffer_lang c0 cursor selection rows after1
  constructor
  · rw [allHaveComment_content, hc1content, hc1lang]
    exact allHaveC_addLoopC (utilsComment c0.lang) rows c0.content hm hsort hvalid
  · rw [toggleCommentBuffer_content, hc1content, hc1lang]
    have hpair := toggleC_pair (utilsComment c0.lang) rows c0.content
      hm hsort hvalid hnotC
    have hinner : toggleCommentC (utilsComment c0.lang) rows c0.content =
        addLoopC (utilsComment c0.lang) rows c0.content := by
      rw [toggleCommentC, if_neg (by rw [hnotC]; exact Bool.false_ne_true)]
    rw [hinner] at hpair
    exact hpair

/-- C5 witness: a two-line rust buffer with the full text selected; the
marker `//` is prepended to both lines and stripped again. -/
theorem claim_c5_witness :
    ([0, 1] = linesToHandle
        (Code.new ('a' :: 'b' :: '\n' :: 'c' :: 'd' :: []) "rust") 0
        (some { start := 0, endPos := 4 }) ∧
      (Code.new ('a' :: 'b' :: '\n' :: 'c' :: 'd' :: []) "rust").allHaveComment
        [0, 1] = false) ∧
    ((Code.new ('a' :: 'b' :: '\n' :: 'c' :: 'd' :: []) "rust").toggleCommentBuffer
        0 (some { start := 0, endPos := 4 }) [0, 1] (0, none)).allHaveComment
      [0, 1] = true ∧
    (((Code.new ('a' :: 'b' :: '\n' :: 'c' :: 'd' :: []) "rust").toggleCommentBuffer
          0 (some { start := 0, endPos := 4 }) [0, 1] (0, none)).toggleCommentBuffer
        0 none [0, 1] (0, none)).content =
      ('a' :: 'b' :: '\n' :: 'c' :: 'd' :: []) :=
  ⟨⟨by decide, by decide⟩,
    claim_c5 (Code.new ('a' :: 'b' :: '\n' :: 'c' :: 'd' :: []) "rust") 0
      (some { start := 0, endPos := 4 }) [0, 1] (0, none) (0, none) 0 none
      (by decide) (by decide)⟩

end Rce
